import Mathlib

/-!
# A linked-list queue of C strings (`queue.c`)

The queue is a singly linked list of `list_ele_t` nodes living in a heap, with a
`queue_t` record holding `head`, `tail` and `size`.  The development below embeds
every function of `queue.c` over an explicit heap:

* a pointer is an `Option Nat` (`none` is `NULL`);
* the heap maps an address to the node stored there (`none`: not allocated);
* a C string is the list of its bytes before the terminator; the `char *value`
  field is an `Option` of such a list (`none` is `NULL`);
* a run ends in `Res.ok` with its result, in `Res.ub` when the C program has
  undefined behaviour (a `NULL` or dangling dereference, an out-of-bounds access),
  or in `Res.fuel` when the loop budget given to the model is exhausted;
* the element count is a C `int` (32 bits): an `int` expression whose value is out of
  range (signed overflow) is undefined behaviour;
* the answers of `malloc` are inputs of the model.
-/

namespace Queue

/-! ## Results of a run -/

/-- Outcome of running a C function in the model. -/
inductive Res (α : Type) where
  | ok (a : α) : Res α
  | ub : Res α
  | fuel : Res α
deriving DecidableEq, Repr

/-- Sequencing: the first outcome that is not `ok` ends the run. -/
def Res.bind {α β : Type} (x : Res α) (f : α → Res β) : Res β :=
  match x with
  | .ok a => f a
  | .ub => .ub
  | .fuel => .fuel

/-! ## Data model -/

/-- The C type `int` (32 bits, two's complement): the integers from `INT_MIN` to
`INT_MAX`. -/
abbrev c_int : Type := { x : Int // -2147483648 ≤ x ∧ x ≤ 2147483647 }

/-- The value of an `int` expression computed as `x`: undefined behaviour when `x` is
out of range (signed overflow). -/
def int_result (x : Int) : Res c_int :=
  if h : -2147483648 ≤ x ∧ x ≤ 2147483647 then .ok ⟨x, h⟩ else .ub

/-- Modelled from the spec: the declaration of `list_ele_t` is in `queue.h`, which is
not among the sources.  An element holds one owned string (`NULL` for the absent
value) and the link to the next element; the fields are those `queue.c` uses. -/
structure list_ele_t where
  value : Option (List Nat)
  next : Option Nat
deriving DecidableEq, Repr

/-- Modelled from the spec: the declaration of `queue_t` is in `queue.h`, which is not
among the sources.  A queue holds the first element, the last element and the element
count; the fields are those `queue.c` uses, the count being a C `int`, the type
`q_size` returns it with. -/
structure queue_t where
  head : Option Nat
  tail : Option Nat
  size : c_int
deriving DecidableEq

/-- The heap of list nodes. -/
abbrev Heap := Nat → Option list_ele_t

/-- The heap with no node allocated. -/
def Heap.empty : Heap := fun _ => none

/-- The heap `m` with address `a` holding `v`. -/
def Heap.write (m : Heap) (a : Nat) (v : Option list_ele_t) : Heap :=
  fun x => if x = a then v else m x

/-- Read the node a pointer designates; undefined for `NULL` and dangling pointers. -/
def load (m : Heap) (p : Option Nat) : Res list_ele_t :=
  match p with
  | none => .ub
  | some a =>
    match m a with
    | none => .ub
    | some e => .ok e

/-- The expression `p->next`. -/
def get_next (m : Heap) (p : Option Nat) : Res (Option Nat) :=
  (load m p).bind fun e => .ok e.next

/-- The expression `p->value`. -/
def get_value (m : Heap) (p : Option Nat) : Res (Option (List Nat)) :=
  (load m p).bind fun e => .ok e.value

/-- The assignment `p->next = v`. -/
def set_next (m : Heap) (p : Option Nat) (v : Option Nat) : Res Heap :=
  match p with
  | none => .ub
  | some a =>
    match m a with
    | none => .ub
    | some e => .ok (m.write a (some { e with next := v }))

/-! ## String and buffer primitives -/

/-- The library function `strcmp` on two byte arrays: the difference of the first
pair of bytes that differ, the end of a list and a zero byte both being the
terminator. -/
def strcmp_bytes : List Nat → List Nat → Int
  | [], [] => 0
  | [], b :: _ => - (b : Int)
  | a :: _, [] => (a : Int)
  | a :: as, b :: bs =>
    if a ≠ b then (a : Int) - (b : Int)
    else if a = 0 then 0
    else strcmp_bytes as bs

/-- The call `strcmp(x, y)` on two `char *`: undefined when either is `NULL`. -/
def strcmp (x y : Option (List Nat)) : Res Int :=
  match x, y with
  | some a, some b => .ok (strcmp_bytes a b)
  | _, _ => .ub

/-- The bytes of the object a `char *value` points to: the string and its
terminator (`strlen(s) + 1` bytes); nothing for `NULL`. -/
def value_bytes (v : Option (List Nat)) : List Nat :=
  match v with
  | none => []
  | some s => s ++ [0]

/-- The call `memcpy(dst, src, n)`: the first `n` bytes of `dst` are replaced by the
first `n` bytes of the source object; undefined when `n` exceeds either object. -/
def memcpy (dst : List Nat) (src : Option (List Nat)) (n : Nat) : Res (List Nat) :=
  if n ≤ (value_bytes src).length ∧ n ≤ dst.length then
    .ok ((value_bytes src).take n ++ dst.drop n)
  else .ub

/-- The assignment `dst[i] = b`: undefined outside the object. -/
def store_byte (dst : List Nat) (i : Nat) (b : Nat) : Res (List Nat) :=
  if i < dst.length then .ok (dst.set i b) else .ub

/-- The value `bufsize - 1` in `size_t` arithmetic (64 bits). -/
def size_pred (bufsize : Nat) : Nat := (bufsize + 2 ^ 64 - 1) % 2 ^ 64

/-- The buffer read as a terminated string: the bytes before the first zero. -/
def c_string (buf : List Nat) : List Nat := buf.takeWhile (fun b => b ≠ 0)

/-! ## The functions of `queue.c` -/

/-- The function `q_new`; `alloc` tells whether `malloc` succeeds. -/
def q_new (alloc : Bool) : Option queue_t :=
  if alloc then some { head := none, tail := none, size := ⟨0, by decide⟩ } else none

/-- The function `q_insert_head`.  `newh` is the answer of the first `malloc`
(`none`: failure), `valloc` tells whether the `malloc` of the value copy succeeds. -/
def q_insert_head (m : Heap) (q : Option queue_t) (s : Option (List Nat))
    (newh : Option Nat) (valloc : Bool) : Res (Heap × Option queue_t × Bool) :=
  match newh with
  | none => .ok (m, q, false)
  | some a =>
    if s.isSome ∧ valloc = false then .ok (m, q, false)
    else
      match q with
      | none => .ub
      | some qq =>
        let m1 := m.write a (some { value := s, next := qq.head })
        (int_result (qq.size.val + 1)).bind fun size =>
          .ok (m1, some { head := some a,
                          tail := if size.val = 1 then some a else qq.tail,
                          size := size }, true)

/-- The function `q_insert_tail`, with the same `malloc` answers as `q_insert_head`. -/
def q_insert_tail (m : Heap) (q : Option queue_t) (s : Option (List Nat))
    (newt : Option Nat) (valloc : Bool) : Res (Heap × Option queue_t × Bool) :=
  match newt with
  | none => .ok (m, q, false)
  | some a =>
    if s.isSome ∧ valloc = false then .ok (m, q, false)
    else
      let m1 := m.write a (some { value := s, next := none })
      match q with
      | none => .ub
      | some qq =>
        match qq.tail with
        | some t =>
          (set_next m1 (some t) (some a)).bind fun m2 =>
          (int_result (qq.size.val + 1)).bind fun size =>
            .ok (m2, some { head := qq.head, tail := some a, size := size }, true)
        | none =>
          (int_result (qq.size.val + 1)).bind fun size =>
            .ok (m1, some { head := some a, tail := some a, size := size }, true)

/-- The call `free(p)` on a node pointer. -/
def free (m : Heap) (p : Option Nat) : Heap :=
  match p with
  | some a => m.write a none
  | none => m

/-- The `while (q->head)` loop of `q_free`. -/
def q_free_loop : Nat → Heap → Option Nat → Res Heap
  | 0, _, _ => .fuel
  | fuel + 1, m, head =>
    match head with
    | none => .ok m
    | some a => (get_next m (some a)).bind fun next => q_free_loop fuel (free m (some a)) next

/-- The function `q_free`; returns the heap once every node is released. -/
def q_free (fuel : Nat) (m : Heap) (q : Option queue_t) : Res Heap :=
  match q with
  | none => .ok m
  | some qq => q_free_loop fuel m qq.head

/-- The block `if (sp) { memcpy(sp, str, bufsize - 1); sp[bufsize - 1] = 0; }` of
`q_remove_head`; returns the buffer object afterwards. -/
def copy_out (sp : Option (List Nat)) (str : Option (List Nat)) (bufsize : Nat) :
    Res (Option (List Nat)) :=
  match sp with
  | none => .ok none
  | some buf =>
    (memcpy buf str (size_pred bufsize)).bind fun b1 =>
      (store_byte b1 (size_pred bufsize) 0).bind fun b2 => .ok (some b2)

/-- The function `q_remove_head`.  `sp` is the object the buffer pointer designates
(`none`: `NULL`), `bufsize` the capacity passed by the caller. -/
def q_remove_head (m : Heap) (q : Option queue_t) (sp : Option (List Nat)) (bufsize : Nat) :
    Res (Heap × Option queue_t × Option (List Nat) × Bool) :=
  match q with
  | none => .ok (m, q, sp, false)
  | some qq =>
    if qq.size.val = 0 then .ok (m, q, sp, false)
    else
      (load m qq.head).bind fun e =>
        let next := e.next
        let str := e.value
        let m1 := free m qq.head
        (copy_out sp str bufsize).bind fun sp1 =>
        (int_result (qq.size.val - 1)).bind fun size =>
          .ok (m1, some { head := next,
                          tail := if qq.size.val = 1 then next else qq.tail,
                          size := size }, sp1, true)

/-- The function `q_size`. -/
def q_size (q : Option queue_t) : Res c_int :=
  match q with
  | none => .ub
  | some qq => .ok qq.size

/-- The `while (tmp != q->tail)` loop of `q_reverse`. -/
def q_reverse_loop (head tail : Option Nat) : Nat → Heap → Option Nat → Res (Heap × Option Nat)
  | 0, _, _ => .fuel
  | fuel + 1, m, tmp =>
    if tmp = tail then .ok (m, tmp)
    else
      (get_next m tmp).bind fun tmp1 =>
      (get_next m head).bind fun hn =>
      (get_next m tail).bind fun tn =>
      (set_next m hn tn).bind fun m1 =>
      (get_next m1 head).bind fun hn1 =>
      (set_next m1 tail hn1).bind fun m2 =>
      (set_next m2 head tmp1).bind fun m3 =>
      q_reverse_loop head tail fuel m3 tmp1

/-- The function `q_reverse`. -/
def q_reverse (fuel : Nat) (m : Heap) (q : Option queue_t) : Res (Heap × Option queue_t) :=
  match q with
  | none => .ok (m, q)
  | some qq =>
    if qq.size.val < 2 then .ok (m, q)
    else
      (get_next m qq.head).bind fun tmp =>
      (set_next m qq.tail qq.head).bind fun m1 =>
      (q_reverse_loop qq.head qq.tail fuel m1 tmp).bind fun r =>
      (set_next r.1 qq.head none).bind fun m3 =>
      .ok (m3, some { head := r.2, tail := qq.head, size := qq.size })

/-- The `while (fast && fast->next)` loop of `merge_sort`; returns `slow`. -/
def split_loop : Nat → Heap → Option Nat → Option Nat → Res (Option Nat)
  | 0, _, _, _ => .fuel
  | fuel + 1, m, slow, fast =>
    match fast with
    | none => .ok slow
    | some f =>
      (get_next m (some f)).bind fun fn =>
        match fn with
        | none => .ok slow
        | some g =>
          (get_next m slow).bind fun slow1 =>
          (get_next m (some g)).bind fun fast1 =>
          split_loop fuel m slow1 fast1

/-- The assignment `*indirect = p`, where `indirect` is either `&cur` (`none`) or
`&a->next` (`some a`); returns the heap and `cur`. -/
def store_indirect (m : Heap) (cur : Option Nat) (indirect : Option Nat) (p : Option Nat) :
    Res (Heap × Option Nat) :=
  match indirect with
  | none => .ok (m, p)
  | some a => (set_next m (some a) p).bind fun m1 => .ok (m1, cur)

/-- The state of the merge loop: heap, `cur`, `indirect`, `slow`, `fast`. -/
structure MergeState where
  mem : Heap
  cur : Option Nat
  indirect : Option Nat
  slow : Option Nat
  fast : Option Nat

/-- The `while (slow && fast)` loop of `merge_sort`. -/
def merge_loop : Nat → MergeState → Res MergeState
  | 0, _ => .fuel
  | fuel + 1, st =>
    match st.slow, st.fast with
    | some s, some f =>
      (get_value st.mem (some s)).bind fun sv =>
      (get_value st.mem (some f)).bind fun fv =>
      (strcmp sv fv).bind fun c =>
        if c ≥ 0 then
          (store_indirect st.mem st.cur st.indirect (some s)).bind fun r =>
          (get_next r.1 (some s)).bind fun slow1 =>
          merge_loop fuel { mem := r.1, cur := r.2, indirect := some s,
                            slow := slow1, fast := some f }
        else
          (store_indirect st.mem st.cur st.indirect (some f)).bind fun r =>
          (get_next r.1 (some f)).bind fun fast1 =>
          merge_loop fuel { mem := r.1, cur := r.2, indirect := some f,
                            slow := some s, fast := fast1 }
    | _, _ => .ok st

/-- The function `merge_sort`; `fuel` bounds the recursion depth and each loop. -/
def merge_sort : Nat → Heap → Option Nat → Res (Heap × Option Nat)
  | 0, _, _ => .fuel
  | fuel + 1, m, head =>
    (get_next m head).bind fun hn =>
      if hn = none then .ok (m, head)
      else
        (split_loop fuel m head hn).bind fun slow =>
        (get_next m slow).bind fun fast =>
        (set_next m slow none).bind fun m1 =>
        (merge_sort fuel m1 head).bind fun r1 =>
        (merge_sort fuel r1.1 fast).bind fun r2 =>
        (merge_loop fuel { mem := r2.1, cur := none, indirect := none,
                           slow := r1.2, fast := r2.2 }).bind fun st =>
        (if st.slow.isSome then store_indirect st.mem st.cur st.indirect st.slow
         else .ok (st.mem, st.cur)).bind fun r3 =>
        (if st.fast.isSome then store_indirect r3.1 r3.2 st.indirect st.fast
         else .ok r3).bind fun r4 =>
        .ok r4

/-- The `while (q->tail && q->tail->next)` loop of `q_sort`. -/
def tail_loop : Nat → Heap → Option Nat → Res (Option Nat)
  | 0, _, _ => .fuel
  | fuel + 1, m, tail =>
    match tail with
    | none => .ok tail
    | some t =>
      (get_next m (some t)).bind fun tn =>
        match tn with
        | none => .ok tail
        | some u => tail_loop fuel m (some u)

/-- The function `q_sort`. -/
def q_sort (fuel : Nat) (m : Heap) (q : Option queue_t) : Res (Heap × Option queue_t) :=
  match q with
  | none => .ok (m, q)
  | some qq =>
    if qq.size.val < 2 then .ok (m, q)
    else
      (merge_sort fuel m qq.head).bind fun r =>
      (tail_loop fuel r.1 qq.tail).bind fun t =>
      .ok (r.1, some { head := r.2, tail := t, size := qq.size })

/-! ## Specification vocabulary -/

/-- The pointer to the first node of the segment `as` followed by `q`. -/
def hd (as : List Nat) (q : Option Nat) : Option Nat :=
  match as with
  | [] => q
  | a :: _ => some a

/-- The nodes `as` are allocated and linked in this order, the last one to `q`. -/
def lseg (m : Heap) : List Nat → Option Nat → Prop
  | [], _ => True
  | a :: as, q => (∃ e, m a = some e ∧ e.next = hd as q) ∧ lseg m as q

/-- The chain starting at pointer `p` visits exactly the nodes `as` and ends in `NULL`. -/
def Chain (m : Heap) (p : Option Nat) (as : List Nat) : Prop :=
  p = hd as none ∧ lseg m as none

/-- The queue record `q` represents the node sequence `as` in heap `m`. -/
structure IsQueue (m : Heap) (q : queue_t) (as : List Nat) : Prop where
  head_eq : q.head = hd as none
  links : lseg m as none
  tail_eq : q.tail = as.getLast?
  size_eq : q.size.val = (as.length : Int)

/-- The `value` field of the node at `a` (`none` for `NULL` and for no node). -/
def value_at (m : Heap) (a : Nat) : Option (List Nat) :=
  match m a with
  | some e => e.value
  | none => none

/-- The values held by the nodes `as`, in order. -/
def node_values (m : Heap) (as : List Nat) : List (Option (List Nat)) :=
  as.map (value_at m)

/-- Every node of `as` holds a present string. -/
def AllPresent (m : Heap) (as : List Nat) : Prop :=
  ∀ a ∈ as, (value_at m a).isSome

/-- The two heaps hold the same nodes with the same values (links may differ). -/
def SameValues (m m' : Heap) : Prop :=
  ∀ a, (m' a).map (fun e => e.value) = (m a).map (fun e => e.value)

/-- The string held by the node at `a` (empty when there is none). -/
def str_at (m : Heap) (a : Nat) : List Nat := (value_at m a).getD []

/-- The test `strcmp(a->value, b->value) >= 0` of the merge loop. -/
def ge_at (m : Heap) (a b : Nat) : Bool := decide (0 ≤ strcmp_bytes (str_at m a) (str_at m b))

/-- The pointer to the node of index `i` in the chain `as` (`NULL` past the end). -/
def ptr (as : List Nat) (i : Nat) : Option Nat := hd (as.drop i) none

/-- The two stores after the merge loop. -/
def merge_finish (st : MergeState) : Res (Heap × Option Nat) :=
  (if st.slow.isSome then store_indirect st.mem st.cur st.indirect st.slow
   else .ok (st.mem, st.cur)).bind fun r3 =>
  (if st.fast.isSome then store_indirect r3.1 r3.2 st.indirect st.fast
   else .ok r3).bind fun r4 =>
  .ok r4

/-- The merge loop followed by the two stores. -/
def merge_run (fuel : Nat) (st : MergeState) : Res (Heap × Option Nat) :=
  (merge_loop fuel st).bind merge_finish

/-- After `*indirect = p` the cell `indirect` designates holds `p`. -/
def Stored (m' : Heap) (cur cur' : Option Nat) (ind : Option Nat) (p : Option Nat) : Prop :=
  match ind with
  | none => cur' = p
  | some l => cur' = cur ∧ ∃ e, m' l = some e ∧ e.next = p

/-- One call of the three queue operations, with the answers of `malloc` and the
caller's buffer. -/
inductive Op where
  | insert_head (s : Option (List Nat)) (newh : Option Nat) (valloc : Bool) : Op
  | insert_tail (s : Option (List Nat)) (newt : Option Nat) (valloc : Bool) : Op
  | remove_head (sp : Option (List Nat)) (bufsize : Nat) : Op

/-- The heap and queue after one call (the boolean result and the buffer dropped). -/
def step (m : Heap) (q : Option queue_t) : Op → Res (Heap × Option queue_t)
  | .insert_head s newh valloc => (q_insert_head m q s newh valloc).bind fun r => .ok (r.1, r.2.1)
  | .insert_tail s newt valloc => (q_insert_tail m q s newt valloc).bind fun r => .ok (r.1, r.2.1)
  | .remove_head sp bufsize => (q_remove_head m q sp bufsize).bind fun r => .ok (r.1, r.2.1)

/-- The heap and queue after a sequence of calls. -/
def run : Heap → Option queue_t → List Op → Res (Heap × Option queue_t)
  | m, q, [] => .ok (m, q)
  | m, q, op :: ops => (step m q op).bind fun r => run r.1 r.2 ops

/-- The contract of `malloc`: a node it returns is not allocated at the time. -/
def fresh (m : Heap) (p : Option Nat) : Prop :=
  match p with
  | some a => m a = none
  | none => True

/-- The contract of `malloc` for one call. -/
def Op.malloc_ok (m : Heap) : Op → Prop
  | .insert_head _ newh _ => fresh m newh
  | .insert_tail _ newt _ => fresh m newt
  | .remove_head _ _ => True

/-- The contract of `malloc` along a sequence of calls. -/
def MallocOk : Heap → Option queue_t → List Op → Prop
  | _, _, [] => True
  | m, q, op :: ops =>
    op.malloc_ok m ∧
      match step m q op with
      | .ok r => MallocOk r.1 r.2 ops
      | _ => True

/-- The bytes of a string literal. -/
def bytes (s : String) : List Nat := s.toList.map Char.toNat

/-- Calls `q_insert_tail` once per item (a present string and the node `malloc`
returns for it, every `malloc` succeeding); returns the final heap and queue and the
results of the calls. -/
def insert_tail_all : Heap → Option queue_t → List (List Nat × Nat) →
    Res (Heap × Option queue_t × List Bool)
  | m, q, [] => .ok (m, q, [])
  | m, q, item :: rest =>
    (q_insert_tail m q (some item.1) (some item.2) true).bind fun r =>
    (insert_tail_all r.1 r.2.1 rest).bind fun r' =>
    .ok (r'.1, r'.2.1, r.2.2 :: r'.2.2)

/-- Calls `q_remove_head` once per capacity, each time with a zeroed buffer of exactly
that capacity; returns the final heap and queue and, for each call, its result and the
string left in the buffer. -/
def remove_head_all : Heap → Option queue_t → List Nat →
    Res (Heap × Option queue_t × List (Bool × List Nat))
  | m, q, [] => .ok (m, q, [])
  | m, q, cap :: caps =>
    (q_remove_head m q (some (List.replicate cap 0)) cap).bind fun r =>
    (remove_head_all r.1 r.2.1 caps).bind fun r' =>
    .ok (r'.1, r'.2.1, (r.2.2.2, c_string (r.2.2.1.getD [])) :: r'.2.2)

/-- The sort example: `q_insert_tail` of "banana", "apple", "cherry" into a new queue,
`q_sort`, then three `q_remove_head` calls with 7-byte buffers. -/
def sort_example : Res (List (Bool × List Nat)) :=
  (insert_tail_all Heap.empty (q_new true)
    [(bytes "banana", 1), (bytes "apple", 2), (bytes "cherry", 3)]).bind fun r =>
  (q_sort 5 r.1 r.2.1).bind fun r1 =>
  (remove_head_all r1.1 r1.2 [7, 7, 7]).bind fun r2 =>
  .ok r2.2.2

/-- The FIFO example: `q_insert_tail` of "a", "b", "c" into a new queue, then three
`q_remove_head` calls with buffers of the given capacity; the results of all six calls
and the queue at the end. -/
def fifo_example (cap : Nat) : Res (List Bool × List (Bool × List Nat) × Option queue_t) :=
  (insert_tail_all Heap.empty (q_new true)
    [(bytes "a", 1), (bytes "b", 2), (bytes "c", 3)]).bind fun r =>
  (remove_head_all r.1 r.2.1 [cap, cap, cap]).bind fun r2 =>
  .ok (r.2.2, r2.2.2, r2.2.1)

/-- The round trip: `q_insert_head` of `v` into a new queue (node at address 1), then
`q_remove_head` with a zeroed buffer of `cap` bytes; the two results, the buffer and
the queue at the end. -/
def round_trip (v : Option (List Nat)) (cap : Nat) :
    Res (Bool × Bool × Option (List Nat) × Option queue_t) :=
  (q_insert_head Heap.empty (q_new true) v (some 1) true).bind fun r =>
  (q_remove_head r.1 r.2.1 (some (List.replicate cap 0)) cap).bind fun r2 =>
  .ok (r.2.2, r2.2.2.2, r2.2.2.1, r2.2.1)

/-- A heap with three nodes holding "banana", "apple", "cherry", linked in this order. -/
def ex_heap : Heap := fun a =>
  if a = 10 then some { value := some (bytes "banana"), next := some 11 }
  else if a = 11 then some { value := some (bytes "apple"), next := some 12 }
  else if a = 12 then some { value := some (bytes "cherry"), next := none }
  else none

/-- The queue record of the three nodes of `ex_heap`. -/
def ex_queue : queue_t := { head := some 10, tail := some 12, size := ⟨3, by decide⟩ }

/-- The call passes no buffer. -/
def Op.no_buffer : Op → Prop
  | .remove_head sp _ => sp = none
  | _ => True

/-- A sequence of calls on a new queue: two insertions, a removal without buffer, and
an insertion whose `malloc` fails. -/
def ex_ops : List Op :=
  [.insert_head (some (bytes "x")) (some 1) true,
   .insert_tail (some (bytes "y")) (some 2) true,
   .remove_head none 0,
   .insert_tail (some (bytes "z")) none true]

/-- The removal example: `q_remove_head` on the queue "banana", "apple", "cherry" with
the buffer `buf` and the capacity `cap`; the result of the call and the buffer. -/
def remove_example (buf : List Nat) (cap : Nat) : Res (Bool × Option (List Nat)) :=
  (q_remove_head ex_heap (some ex_queue) (some buf) cap).bind fun r => .ok (r.2.2.2, r.2.2.1)

/-- A heap with three nodes holding "b", "a", "b", linked in this order. -/
def dup_heap : Heap := fun a =>
  if a = 10 then some { value := some (bytes "b"), next := some 11 }
  else if a = 11 then some { value := some (bytes "a"), next := some 12 }
  else if a = 12 then some { value := some (bytes "b"), next := none }
  else none

/-- The queue record of the three nodes of `dup_heap`. -/
def dup_queue : queue_t := { head := some 10, tail := some 12, size := ⟨3, by decide⟩ }

/-- The nodes visited from `p`, at most `fuel` of them. -/
def walk : Nat → Heap → Option Nat → List Nat
  | 0, _, _ => []
  | fuel + 1, m, p =>
    match p with
    | none => []
    | some a =>
      match m a with
      | none => []
      | some e => a :: walk fuel m e.next

/-- The stability example: the nodes of the queue "b", "a", "b" in the order `q_sort`
leaves them. -/
def stable_example : Res (List Nat) :=
  (q_sort 5 dup_heap (some dup_queue)).bind fun r =>
    .ok (walk 5 r.1 (r.2.bind fun qq => qq.head))

/-- The absent-value example: `q_insert_head` of the absent value and `q_insert_tail`
of "a" into a new queue, then `q_sort`; the results of the two insertions and the
queue record after the sort. -/
def sort_absent_example : Res (Bool × Bool × Option queue_t) :=
  (q_insert_head Heap.empty (q_new true) none (some 1) true).bind fun r1 =>
  (q_insert_tail r1.1 r1.2.1 (some (bytes "a")) (some 2) true).bind fun r2 =>
  (q_sort 5 r2.1 r2.2.1).bind fun r3 =>
  .ok (r1.2.2, r2.2.2, r3.2)

/-- The two insertions of the absent-value example alone. -/
def insert_absent_example : Res (Bool × Bool × Option queue_t) :=
  (q_insert_head Heap.empty (q_new true) none (some 1) true).bind fun r1 =>
  (q_insert_tail r1.1 r1.2.1 (some (bytes "a")) (some 2) true).bind fun r2 =>
  .ok (r1.2.2, r2.2.2, r2.2.1)

/-- The sequence of `n` calls of `q_insert_head` with the absent value, `malloc`
returning the nodes 0, 1, ... in turn. -/
def head_inserts (n : Nat) : List Op :=
  (List.range n).map fun i => Op.insert_head none (some i) true

/-- The sequence of `INT_MAX + 1` successful insertions. -/
def overflow_ops : List Op := head_inserts (2147483647 + 1)

/-- The heap with the nodes 1 to `n`, holding the absent value, linked in increasing
order. -/
def count_heap (n : Nat) : Heap := fun a =>
  if 1 ≤ a ∧ a ≤ n then
    some { value := none, next := if a < n then some (a + 1) else none }
  else none

/-- The heap of a queue of `INT_MAX` nodes. -/
def full_heap : Heap := count_heap 2147483647

/-- The nodes of `full_heap` in the order of the chain. -/
def full_nodes : List Nat := List.range' 1 2147483647

/-- The queue record of the `INT_MAX` nodes of `full_heap`. -/
def full_queue : queue_t :=
  { head := some 1, tail := some 2147483647, size := ⟨2147483647, by decide⟩ }

/-! ## Lemmas -/

@[simp] theorem bind_ok {α β : Type} (a : α) (f : α → Res β) : (Res.ok a).bind f = f a := rfl
@[simp] theorem bind_ub {α β : Type} (f : α → Res β) : (Res.ub : Res α).bind f = .ub := rfl
@[simp] theorem bind_fuel {α β : Type} (f : α → Res β) : (Res.fuel : Res α).bind f = .fuel := rfl

@[simp] theorem write_same (m : Heap) (a : Nat) (v : Option list_ele_t) : (m.write a v) a = v := by
  simp [Heap.write]

theorem write_other (m : Heap) {a b : Nat} (v : Option list_ele_t) (h : b ≠ a) :
    (m.write a v) b = m b := by
  simp [Heap.write, h]

@[simp] theorem hd_nil (q : Option Nat) : hd [] q = q := rfl
@[simp] theorem hd_cons (a : Nat) (as : List Nat) (q : Option Nat) : hd (a :: as) q = some a := rfl

theorem hd_append (as bs : List Nat) (q : Option Nat) : hd (as ++ bs) q = hd as (hd bs q) := by
  cases as <;> rfl

theorem hd_none_eq_head? (as : List Nat) : hd as none = as.head? := by
  cases as <;> rfl

theorem hd_eq_none {as : List Nat} : hd as none = none ↔ as = [] := by
  cases as <;> simp

theorem lseg_append {m : Heap} {as bs : List Nat} {q : Option Nat} :
    lseg m (as ++ bs) q ↔ lseg m as (hd bs q) ∧ lseg m bs q := by
  induction as with
  | nil => simp [lseg]
  | cons a as ih => simp [lseg, ih, hd_append, and_assoc]

theorem lseg_frame {m m' : Heap} {as : List Nat} {q : Option Nat}
    (h : ∀ a ∈ as, m' a = m a) (hl : lseg m as q) : lseg m' as q := by
  induction as with
  | nil => trivial
  | cons a as ih =>
    obtain ⟨⟨e, he, hn⟩, hr⟩ := hl
    refine ⟨⟨e, ?_, hn⟩, ih (fun b hb => h b (List.mem_cons_of_mem _ hb)) hr⟩
    rw [h a (List.mem_cons_self _ _)]; exact he

theorem lseg_alloc {m : Heap} {as : List Nat} {q : Option Nat} (hl : lseg m as q) :
    ∀ a ∈ as, ∃ e, m a = some e := by
  induction as with
  | nil => simp
  | cons a as ih =>
    obtain ⟨⟨e, he, _⟩, hr⟩ := hl
    intro b hb
    rcases List.mem_cons.1 hb with rfl | hb
    · exact ⟨e, he⟩
    · exact ih hr b hb

/-- The links of a `NULL`-terminated chain determine the chain from its first node. -/
theorem lseg_functional {m : Heap} : ∀ {as bs : List Nat},
    lseg m as none → lseg m bs none → hd as none = hd bs none → as = bs
  | [], [], _, _, _ => rfl
  | [], _ :: _, _, _, h => by simp at h
  | _ :: _, [], _, _, h => by simp at h
  | a :: as, b :: bs, ha, hb, h => by
    simp only [hd_cons, Option.some.injEq] at h
    subst h
    obtain ⟨⟨e, he, hn⟩, hr⟩ := ha
    obtain ⟨⟨e', he', hn'⟩, hr'⟩ := hb
    rw [he] at he'
    cases he'
    rw [lseg_functional hr hr' (hn.symm.trans hn')]

theorem lseg_nodup {m : Heap} : ∀ {as : List Nat}, lseg m as none → as.Nodup
  | [], _ => List.nodup_nil
  | a :: as, h => by
    refine List.nodup_cons.2 ⟨fun hmem => ?_, lseg_nodup h.2⟩
    obtain ⟨l1, l2, heq⟩ := List.append_of_mem hmem
    have h2 : lseg m (a :: l2) none := by
      have := h.2; rw [heq] at this; exact (lseg_append.1 this).2
    have := lseg_functional h h2 rfl
    have hlen := congrArg List.length this
    rw [heq] at hlen
    simp at hlen
    omega

theorem chain_unique {m : Heap} {p : Option Nat} {as bs : List Nat}
    (h1 : Chain m p as) (h2 : Chain m p bs) : as = bs :=
  lseg_functional h1.2 h2.2 (h1.1.symm.trans h2.1)

theorem IsQueue.chain {m : Heap} {q : queue_t} {as : List Nat} (h : IsQueue m q as) :
    Chain m q.head as := ⟨h.head_eq, h.links⟩

theorem IsQueue.nodup {m : Heap} {q : queue_t} {as : List Nat} (h : IsQueue m q as) :
    as.Nodup := lseg_nodup h.links

theorem getLast?_eq_none_iff' {as : List Nat} : as.getLast? = none ↔ as = [] := by
  cases as with
  | nil => simp
  | cons a as => simp [List.getLast?_cons_cons, List.getLast?_eq_getLast]

theorem getLast?_snoc (as : List Nat) (a : Nat) : (as ++ [a]).getLast? = some a := by
  rw [List.getLast?_eq_getLast _ (by simp)]
  simp

theorem load_of_mem {m : Heap} {a : Nat} {e : list_ele_t} (h : m a = some e) :
    load m (some a) = .ok e := by
  simp [load, h]

theorem get_next_of {m : Heap} {a : Nat} {e : list_ele_t} (h : m a = some e) :
    get_next m (some a) = .ok e.next := by
  simp [get_next, load, h]

theorem set_next_of {m : Heap} {a : Nat} {e : list_ele_t} (h : m a = some e) (v : Option Nat) :
    set_next m (some a) v = .ok (m.write a (some { e with next := v })) := by
  simp [set_next, h]

theorem value_at_write_other (m : Heap) {a b : Nat} (v : Option list_ele_t) (h : b ≠ a) :
    value_at (m.write a v) b = value_at m b := by
  simp [value_at, write_other m v h]

theorem not_mem_of_fresh {m : Heap} {as : List Nat} {q : Option Nat} {a : Nat}
    (hl : lseg m as q) (hf : m a = none) : a ∉ as := by
  intro hmem
  obtain ⟨e, he⟩ := lseg_alloc hl a hmem
  rw [hf] at he
  cases he

theorem int_result_of_range {x : Int} (h : -2147483648 ≤ x ∧ x ≤ 2147483647) :
    int_result x = .ok ⟨x, h⟩ := by
  simp only [int_result, dif_pos h]

theorem int_result_overflow {x : Int} (h : 2147483647 < x) : int_result x = .ub := by
  have hn : ¬ (-2147483648 ≤ x ∧ x ≤ 2147483647) := by
    rintro ⟨-, h2⟩
    omega
  simp only [int_result, dif_neg hn]

/-- A queue record cannot count more than `INT_MAX` nodes. -/
theorem IsQueue.length_le {m : Heap} {q : queue_t} {as : List Nat} (h : IsQueue m q as) :
    as.length ≤ 2147483647 := by
  have h1 := h.size_eq
  have h2 := q.size.property.2
  omega

theorem isQueue_nil_iff {m : Heap} {q : queue_t} :
    IsQueue m q [] ↔ q = { head := none, tail := none, size := ⟨0, by decide⟩ } := by
  constructor
  · intro h
    have h1 := h.head_eq
    have h2 := h.tail_eq
    have h3 := h.size_eq
    obtain ⟨hd', tl', ⟨sz, hsz⟩⟩ := q
    simp only [hd_nil, List.getLast?_nil, List.length_nil, Nat.cast_zero] at h1 h2 h3
    subst h1 h2 h3
    rfl
  · rintro rfl
    exact ⟨rfl, trivial, rfl, rfl⟩

/-- A new queue represents the empty sequence. -/
theorem q_new_isQueue (m : Heap) :
    ∃ q, q_new true = some q ∧ IsQueue m q [] :=
  ⟨_, rfl, isQueue_nil_iff.2 rfl⟩

/-- Effect of a successful `q_insert_head` on a well-formed queue. -/
theorem q_insert_head_spec {m : Heap} {q : queue_t} {as : List Nat} (hq : IsQueue m q as)
    (s : Option (List Nat)) {a : Nat} (hf : m a = none) (valloc : Bool)
    (hv : s.isSome → valloc = true) (hlen : as.length < 2147483647) :
    ∃ m' q', q_insert_head m (some q) s (some a) valloc = .ok (m', some q', true) ∧
      IsQueue m' q' (a :: as) ∧ value_at m' a = s ∧ (∀ b, b ≠ a → m' b = m b) := by
  have hna : a ∉ as := not_mem_of_fresh hq.links hf
  have hcond : ¬ (s.isSome ∧ valloc = false) := by
    rintro ⟨h1, h2⟩
    rw [hv h1] at h2
    cases h2
  have hsz := hq.size_eq
  have hr : -2147483648 ≤ q.size.val + 1 ∧ q.size.val + 1 ≤ 2147483647 := by
    rw [hsz]; omega
  refine ⟨m.write a (some { value := s, next := q.head }),
    { head := some a, tail := if q.size.val + 1 = 1 then some a else q.tail,
      size := ⟨q.size.val + 1, hr⟩ },
    ?_, ?_, ?_, ?_⟩
  · simp only [q_insert_head, if_neg hcond, int_result_of_range hr, bind_ok]
  · refine ⟨rfl, ⟨⟨_, write_same _ _ _, hq.head_eq⟩, ?_⟩, ?_, ?_⟩
    · exact lseg_frame (fun b hb => write_other m _ (fun h => hna (h ▸ hb))) hq.links
    · have htl := hq.tail_eq
      cases as with
      | nil => simp [hsz]
      | cons b bs =>
        have : ¬ (q.size.val + 1 = 1) := by
          rw [hsz]; simp; omega
        simp [this, htl, List.getLast?_cons_cons]
    · simp [hsz]
  · simp [value_at]
  · intro b hb
    exact write_other m _ hb

/-- Effect of a successful `q_insert_tail` on a well-formed queue. -/
theorem q_insert_tail_spec {m : Heap} {q : queue_t} {as : List Nat} (hq : IsQueue m q as)
    (s : Option (List Nat)) {a : Nat} (hf : m a = none) (valloc : Bool)
    (hv : s.isSome → valloc = true) (hlen : as.length < 2147483647) :
    ∃ m' q', q_insert_tail m (some q) s (some a) valloc = .ok (m', some q', true) ∧
      IsQueue m' q' (as ++ [a]) ∧ value_at m' a = s ∧
      (∀ b, b ≠ a → value_at m' b = value_at m b) ∧ (∀ b, b ∉ as → b ≠ a → m' b = m b) := by
  have hna : a ∉ as := not_mem_of_fresh hq.links hf
  have hcond : ¬ (s.isSome ∧ valloc = false) := by
    rintro ⟨h1, h2⟩
    rw [hv h1] at h2
    cases h2
  have hsz := hq.size_eq
  have htl := hq.tail_eq
  have hhd := hq.head_eq
  have hr : -2147483648 ≤ q.size.val + 1 ∧ q.size.val + 1 ≤ 2147483647 := by
    rw [hsz]; omega
  rcases List.eq_nil_or_concat as with rfl | ⟨pre, t, rfl⟩
  · simp only [List.getLast?_nil] at htl
    refine ⟨m.write a (some { value := s, next := none }),
      { head := some a, tail := some a, size := ⟨q.size.val + 1, hr⟩ }, ?_, ?_, ?_, ?_, ?_⟩
    · simp only [q_insert_tail, if_neg hcond, htl, int_result_of_range hr, bind_ok]
    · exact ⟨rfl, ⟨⟨_, write_same _ _ _, rfl⟩, trivial⟩, rfl, by simp [hsz]⟩
    · simp [value_at]
    · intro b hb
      exact value_at_write_other m _ hb
    · intro b _ hb
      exact write_other m _ hb
  · rw [List.concat_eq_append, getLast?_snoc] at htl
    have hnd := lseg_nodup hq.links
    rw [List.concat_eq_append] at hq hna hnd hhd hsz
    have hl := lseg_append.1 hq.links
    obtain ⟨⟨e, he, hen⟩, _⟩ := hl.2
    have hta : t ≠ a := fun h => hna (by simp [h])
    have htp : t ∉ pre := by
      intro h
      have := List.nodup_append.1 hnd
      exact this.2.2 h (List.mem_singleton_self t)
    have hm1t : (m.write a (some { value := s, next := none })) t = some e := by
      rw [write_other m _ hta]; exact he
    refine ⟨(m.write a (some { value := s, next := none })).write t
        (some { e with next := some a }),
      { head := q.head, tail := some a, size := ⟨q.size.val + 1, hr⟩ }, ?_, ?_, ?_, ?_, ?_⟩
    · simp only [q_insert_tail, if_neg hcond, htl, set_next_of hm1t, bind_ok,
        int_result_of_range hr]
    · refine ⟨?_, ?_, ?_, ?_⟩
      · simp only [hhd, hd_append, List.concat_eq_append, List.append_assoc]
        cases pre <;> rfl
      · rw [List.concat_eq_append, List.append_assoc]
        refine lseg_append.2 ⟨?_, ⟨⟨_, write_same _ _ _, rfl⟩,
          ⟨⟨{ value := s, next := none }, ?_, rfl⟩, trivial⟩⟩⟩
        · refine lseg_frame (fun b hb => ?_) hl.1
          have hbt : b ≠ t := fun h => htp (h ▸ hb)
          have hba : b ≠ a := fun h => hna (by simp [← h, hb])
          rw [write_other _ _ hbt, write_other _ _ hba]
        · rw [write_other _ _ hta.symm, write_same]
      · rw [getLast?_snoc]
      · simp [hsz]
        omega
    · simp [value_at, write_other _ _ hta.symm]
    · intro b hb
      by_cases hbt : b = t
      · subst hbt
        simp [value_at, he]
      · rw [value_at_write_other _ _ hbt, value_at_write_other _ _ hb]
    · intro b hb hba
      have hbt : b ≠ t := fun h => hb (by simp [h])
      rw [write_other _ _ hbt, write_other _ _ hba]

/-- Effect of `q_remove_head` on a well-formed non-empty queue. -/
theorem q_remove_head_spec {m : Heap} {q : queue_t} {a : Nat} {as : List Nat}
    (hq : IsQueue m q (a :: as)) (sp : Option (List Nat)) (bufsize : Nat) :
    ∃ q', IsQueue (m.write a none) q' as ∧
      q_remove_head m (some q) sp bufsize =
        (copy_out sp (value_at m a) bufsize).bind fun sp1 =>
          .ok (m.write a none, some q', sp1, true) := by
  obtain ⟨⟨e, he, hen⟩, hr⟩ := hq.links
  have hsz := hq.size_eq
  have htl := hq.tail_eq
  have hhd := hq.head_eq
  have hnd := List.nodup_cons.1 (lseg_nodup hq.links)
  have hne : q.size.val ≠ 0 := by rw [hsz]; simp; omega
  have hrg : -2147483648 ≤ q.size.val - 1 ∧ q.size.val - 1 ≤ 2147483647 := by
    have := q.size.property.2
    rw [hsz] at this ⊢
    simp only [List.length_cons, Nat.cast_add, Nat.cast_one] at this ⊢
    omega
  simp only [hd_cons] at hhd
  refine ⟨{ head := e.next, tail := if q.size.val = 1 then e.next else q.tail,
            size := ⟨q.size.val - 1, hrg⟩ }, ⟨hen, ?_, ?_, ?_⟩, ?_⟩
  · exact lseg_frame (fun b hb => write_other m _ (fun h => hnd.1 (h ▸ hb))) hr
  · cases as with
    | nil => simp [hsz, hen]
    | cons b bs =>
      have : ¬ (q.size.val = 1) := by rw [hsz]; simp; omega
      simp [this, htl, List.getLast?_cons_cons]
  · simp [hsz]
  · simp only [q_remove_head, if_neg hne, hhd, load_of_mem he, bind_ok, free, value_at, he,
      int_result_of_range hrg]

/-- The function `q_remove_head` fails on the empty queue and changes nothing. -/
theorem q_remove_head_empty {m : Heap} {q : queue_t} (hq : IsQueue m q [])
    (sp : Option (List Nat)) (bufsize : Nat) :
    q_remove_head m (some q) sp bufsize = .ok (m, some q, sp, false) := by
  have := hq.size_eq
  simp at this
  simp [q_remove_head, this]

theorem SameValues.refl (m : Heap) : SameValues m m := fun _ => rfl

theorem SameValues.trans {m1 m2 m3 : Heap} (h12 : SameValues m1 m2) (h23 : SameValues m2 m3) :
    SameValues m1 m3 := fun a => (h23 a).trans (h12 a)

theorem SameValues.write_next {m : Heap} {a : Nat} {e : list_ele_t} (h : m a = some e)
    (v : Option Nat) : SameValues m (m.write a (some { e with next := v })) := by
  intro b
  by_cases hb : b = a
  · subst hb
    simp [h]
  · rw [write_other m _ hb]

theorem SameValues.value_at {m m' : Heap} (h : SameValues m m') (a : Nat) :
    value_at m' a = value_at m a := by
  have := h a
  unfold Queue.value_at
  cases h1 : m' a <;> cases h2 : m a <;> simp_all

theorem SameValues.node_values {m m' : Heap} (h : SameValues m m') (as : List Nat) :
    node_values m' as = node_values m as := by
  unfold Queue.node_values
  exact List.map_congr_left (fun a _ => h.value_at a)

theorem hd_append_cons (as : List Nat) (t : Nat) (bs : List Nat) (q r : Option Nat) :
    hd (as ++ t :: bs) q = hd (as ++ [t]) r := by
  cases as <;> rfl

/-- The loop of `q_reverse` moves the nodes between the first and the last node, one
per iteration, to the position right after the last node. -/
theorem q_reverse_loop_spec (h t : Nat) : ∀ (todo D : List Nat) (m : Heap) (fuel : Nat),
    (h :: todo ++ t :: D).Nodup → lseg m (h :: todo ++ t :: D) (some h) →
    todo.length < fuel →
    ∃ m', q_reverse_loop (some h) (some t) fuel m (hd (todo ++ [t]) none) = .ok (m', some t) ∧
      lseg m' (h :: t :: (todo.reverse ++ D)) (some h) ∧ SameValues m m' ∧
      (∀ b, b ∉ h :: todo ++ t :: D → m' b = m b)
  | [], D, m, fuel, _, hl, hf => by
    obtain ⟨f, rfl⟩ : ∃ f, fuel = f + 1 := ⟨fuel - 1, by omega⟩
    exact ⟨m, by simp [q_reverse_loop], by simpa using hl, SameValues.refl m, fun _ _ => rfl⟩
  | x :: todo, D, m, fuel, hnd, hl, hf => by
    obtain ⟨f, rfl⟩ : ∃ f, fuel = f + 1 := ⟨fuel - 1, by omega⟩
    simp only [List.length_cons] at hf
    -- the distinctness facts
    have hnd' : (h :: x :: (todo ++ t :: D)).Nodup := by simpa using hnd
    obtain ⟨hh, hnd1⟩ := List.nodup_cons.1 hnd'
    obtain ⟨hx, hnd2⟩ := List.nodup_cons.1 hnd1
    have hxh : x ≠ h := fun e => hh (by simp [e])
    have hxt : x ≠ t := fun e => hx (by simp [e])
    have hth : t ≠ h := fun e => hh (by simp [e])
    -- the links
    have hl' : lseg m (h :: x :: (todo ++ t :: D)) (some h) := by simpa using hl
    obtain ⟨⟨eh, heh, hehn⟩, ⟨ex, hex, hexn⟩, hrest⟩ := hl'
    obtain ⟨htodo, ⟨et, het, hetn⟩, hD⟩ := lseg_append.1 hrest
    -- the three stores
    have h1x : (m.write x (some { ex with next := et.next })) h = some eh := by
      rw [write_other _ _ hxh.symm]; exact heh
    have h1t : (m.write x (some { ex with next := et.next })) t = some et := by
      rw [write_other _ _ hxt.symm]; exact het
    have h2h : ((m.write x (some { ex with next := et.next })).write t
        (some { et with next := some x })) h = some eh := by
      rw [write_other _ _ hth.symm]; exact h1x
    have hstep : q_reverse_loop (some h) (some t) (f + 1) m (hd ((x :: todo) ++ [t]) none) =
        q_reverse_loop (some h) (some t) f
          (((m.write x (some { ex with next := et.next })).write t
            (some { et with next := some x })).write h (some { eh with next := ex.next }))
          (hd (todo ++ [t]) none) := by
      have hxn : ex.next = hd (todo ++ [t]) none := by
        rw [hexn]; exact hd_append_cons _ _ _ _ _
      simp only [q_reverse_loop, List.cons_append, hd_cons, Option.some.injEq, if_neg hxt,
        get_next_of hex, get_next_of heh, get_next_of het, bind_ok, hehn, set_next_of hex,
        get_next_of h1x, set_next_of h1t, set_next_of h2h, hxn]
    rw [hstep]
    -- the new heap satisfies the invariant
    have hnd3 : (h :: todo ++ t :: x :: D).Nodup := by
      have : (h :: todo ++ t :: x :: D).Perm (h :: x :: (todo ++ t :: D)) := by
        refine List.Perm.cons h ?_
        have h1 : (todo ++ t :: x :: D).Perm (x :: (todo ++ t :: D)) := by
          have : todo ++ t :: x :: D = (todo ++ [t]) ++ x :: D := by simp
          rw [this]
          have h2 : x :: (todo ++ t :: D) = x :: ((todo ++ [t]) ++ D) := by simp
          rw [h2]
          exact List.perm_middle
        exact h1
      exact this.nodup_iff.2 hnd'
    have hl3 : lseg (((m.write x (some { ex with next := et.next })).write t
            (some { et with next := some x })).write h (some { eh with next := ex.next }))
          (h :: todo ++ t :: x :: D) (some h) := by
      have hfr : ∀ b, b ≠ x → b ≠ t → b ≠ h →
          (((m.write x (some { ex with next := et.next })).write t
            (some { et with next := some x })).write h (some { eh with next := ex.next })) b
            = m b := by
        intro b h1 h2 h3
        rw [write_other _ _ h3, write_other _ _ h2, write_other _ _ h1]
      have htodo_nd : ∀ b ∈ todo, b ≠ x ∧ b ≠ t ∧ b ≠ h := by
        intro b hb
        refine ⟨fun e => hx (by simp [← e, hb]), ?_, fun e => hh (by simp [← e, hb])⟩
        intro e
        have := (List.nodup_append.1 hnd2).2.2 hb (by simp [e])
        exact this
      have hD_nd : ∀ b ∈ D, b ≠ x ∧ b ≠ t ∧ b ≠ h := by
        intro b hb
        refine ⟨fun e => hx (by simp [← e, hb]), ?_, fun e => hh (by simp [← e, hb])⟩
        intro e
        have h4 := (List.nodup_append.1 hnd2).2.1
        exact (List.nodup_cons.1 h4).1 (e ▸ hb)
      show lseg _ (h :: (todo ++ t :: x :: D)) (some h)
      refine ⟨⟨_, write_same _ _ _, ?_⟩, lseg_append.2 ⟨?_,
        ⟨{ et with next := some x }, ?_, ?_⟩, ⟨{ ex with next := et.next }, ?_, ?_⟩, ?_⟩⟩
      · show ex.next = _
        rw [hexn]
        exact (hd_append_cons todo t D _ none).trans (hd_append_cons todo t (x :: D) _ none).symm
      · exact lseg_frame (fun b hb => hfr b (htodo_nd b hb).1 (htodo_nd b hb).2.1
          (htodo_nd b hb).2.2) htodo
      · rw [write_other _ _ hth, write_same]
      · rfl
      · rw [write_other _ _ hxh, write_other _ _ hxt, write_same]
      · exact hetn
      · exact lseg_frame (fun b hb => hfr b (hD_nd b hb).1 (hD_nd b hb).2.1 (hD_nd b hb).2.2) hD
    obtain ⟨m', hrun, hl', hsv, hfr'⟩ :=
      q_reverse_loop_spec h t todo (x :: D) _ f hnd3 hl3 (by omega)
    refine ⟨m', hrun, by simpa using hl', ?_, ?_⟩
    · exact ((SameValues.write_next hex _).trans (SameValues.write_next h1t _)).trans
        ((SameValues.write_next h2h _).trans hsv)
    · intro b hb
      have hb' : b ∉ h :: todo ++ t :: x :: D := by
        intro hmem; apply hb
        simp only [List.cons_append, List.mem_cons, List.mem_append] at hmem ⊢
        tauto
      rw [hfr' b hb']
      have hbx : b ≠ x := fun e => hb (by simp [e])
      have hbt : b ≠ t := fun e => hb (by simp [e])
      have hbh : b ≠ h := fun e => hb (by simp [e])
      rw [write_other _ _ hbh, write_other _ _ hbt, write_other _ _ hbx]

/-- Effect of `q_reverse` on a well-formed queue: the same nodes, with the same
values, linked in the reverse order. -/
theorem q_reverse_spec {m : Heap} {q : queue_t} {as : List Nat} (hq : IsQueue m q as)
    (fuel : Nat) (hf : as.length ≤ fuel) :
    ∃ m' q', q_reverse fuel m (some q) = .ok (m', some q') ∧ IsQueue m' q' as.reverse ∧
      SameValues m m' ∧ (∀ b, b ∉ as → m' b = m b) ∧
      (as.length < 2 → m' = m ∧ q' = q) := by
  have hsz := hq.size_eq
  by_cases hlen : as.length < 2
  · have hlt : q.size.val < 2 := by rw [hsz]; exact_mod_cast hlen
    refine ⟨m, q, by simp [q_reverse, hlt], ?_, SameValues.refl m, fun _ _ => rfl,
      fun _ => ⟨rfl, rfl⟩⟩
    have : as.reverse = as := by
      match as, hlen with
      | [], _ => rfl
      | [_], _ => rfl
    rw [this]; exact hq
  · have hge : ¬ q.size.val < 2 := by rw [hsz]; exact_mod_cast hlen
    obtain ⟨h, rest, rfl⟩ : ∃ h rest, as = h :: rest := by
      cases as with
      | nil => simp at hlen
      | cons h rest => exact ⟨h, rest, rfl⟩
    obtain ⟨mid, t, rfl⟩ : ∃ mid t, rest = mid ++ [t] := by
      rcases List.eq_nil_or_concat rest with rfl | ⟨mid, t, rfl⟩
      · simp at hlen
      · exact ⟨mid, t, by simp⟩
    have hhd : q.head = some h := hq.head_eq
    have htl : q.tail = some t := by
      rw [hq.tail_eq, ← List.cons_append, getLast?_snoc]
    have hnd : (h :: mid ++ [t]).Nodup := by simpa using lseg_nodup hq.links
    have hnd' : (h :: (mid ++ [t])).Nodup := by simpa using hnd
    obtain ⟨hh, hnd1⟩ := List.nodup_cons.1 hnd'
    have hth : t ≠ h := fun e => hh (by simp [e])
    obtain ⟨⟨eh, heh, hehn⟩, hrest⟩ := hq.links
    obtain ⟨hmid, ⟨et, het, hetn⟩, -⟩ := lseg_append.1 hrest
    have htm : t ∉ mid := fun hmem => (List.nodup_append.1 hnd1).2.2 hmem (by simp)
    -- the heap after `q->tail->next = q->head`
    have hl1 : lseg (m.write t (some { et with next := some h })) (h :: mid ++ t :: [])
        (some h) := by
      show lseg _ (h :: (mid ++ t :: [])) (some h)
      refine ⟨⟨eh, ?_, ?_⟩, lseg_append.2 ⟨?_, ⟨{ et with next := some h }, ?_, rfl⟩, trivial⟩⟩
      · rw [write_other _ _ hth.symm]; exact heh
      · rw [hehn]; exact hd_append_cons _ _ _ _ _
      · exact lseg_frame (fun b hb => write_other _ _ (fun e => htm (e ▸ hb))) hmid
      · exact write_same _ _ _
    obtain ⟨m2, hrun, hl2, hsv2, hfr2⟩ :=
      q_reverse_loop_spec h t mid [] _ fuel hnd hl1 (by simp at hf; omega)
    obtain ⟨⟨eh2, heh2, hehn2⟩, hl2'⟩ := hl2
    have hstep : q_reverse fuel m (some q) =
        .ok (m2.write h (some { eh2 with next := none }),
          some { head := some t, tail := some h, size := q.size }) := by
      simp only [q_reverse, if_neg hge, hhd, htl, get_next_of heh, bind_ok, set_next_of het,
        hehn, hrun, set_next_of heh2]
    refine ⟨_, _, hstep, ?_, ?_, ?_, fun h' => absurd h' hlen⟩
    · have hrev : (h :: (mid ++ [t])).reverse = (t :: mid.reverse) ++ [h] := by simp
      rw [hrev]
      have hhm : h ∉ t :: (mid.reverse ++ []) := by
        intro hmem
        apply hh
        simp only [List.append_nil, List.mem_cons, List.mem_reverse] at hmem
        rcases hmem with e | hmem
        · exact absurd e.symm hth
        · simp [hmem]
      refine ⟨rfl, lseg_append.2 ⟨?_, ⟨_, write_same _ _ _, rfl⟩, trivial⟩, ?_, ?_⟩
      · have := @lseg_frame m2 (m2.write h (some { eh2 with next := none })) _ _
          (fun b hb => write_other _ _ (fun e => hhm (e ▸ hb))) hl2'
        simpa using this
      · rw [getLast?_snoc]
      · simp [hsz]
    · exact ((SameValues.write_next het _).trans hsv2).trans (SameValues.write_next heh2 _)
    · intro b hb
      have hbh : b ≠ h := fun e => hb (by simp [e])
      have hbt : b ≠ t := fun e => hb (by simp [e])
      rw [write_other _ _ hbh, hfr2 b (by simpa using hb), write_other _ _ hbt]

theorem ptr_eq_none {as : List Nat} {i : Nat} : ptr as i = none ↔ as.length ≤ i := by
  unfold ptr
  rw [hd_eq_none, List.drop_eq_nil_iff]

theorem ptr_zero (as : List Nat) : ptr as 0 = hd as none := rfl

theorem get_next_ptr {m : Heap} : ∀ {as : List Nat} {i : Nat}, lseg m as none → i < as.length →
    get_next m (ptr as i) = .ok (ptr as (i + 1))
  | [], _, _, h => by simp at h
  | a :: as, 0, hl, _ => by
    obtain ⟨⟨e, he, hn⟩, _⟩ := hl
    simp [ptr, get_next_of he, hn]
  | a :: as, i + 1, hl, h => by
    have := get_next_ptr (i := i) hl.2 (by simpa using h)
    simpa [ptr] using this

theorem SameValues.ge_at {m m' : Heap} (h : SameValues m m') : Queue.ge_at m' = Queue.ge_at m := by
  funext a b
  simp [Queue.ge_at, str_at, h.value_at]

theorem SameValues.allPresent {m m' : Heap} (h : SameValues m m') {as : List Nat} :
    AllPresent m' as ↔ AllPresent m as := by
  simp [AllPresent, h.value_at]

/-- The slow/fast walk stops with `slow` on the node of index `(n - 1) / 2`. -/
theorem split_loop_spec {m : Heap} {as : List Nat} (hl : lseg m as none) (hne : as ≠ []) :
    ∀ (fuel k : Nat), k ≤ (as.length - 1) / 2 → (as.length - 1) / 2 - k < fuel →
      split_loop fuel m (ptr as k) (ptr as (2 * k + 1)) = .ok (ptr as ((as.length - 1) / 2))
  | 0, _, _, hf => by omega
  | fuel + 1, k, hk, hf => by
    have hpos : 0 < as.length := List.length_pos.2 hne
    cases hfast : ptr as (2 * k + 1) with
    | none =>
      have := ptr_eq_none.1 hfast
      have hk' : k = (as.length - 1) / 2 := by omega
      simp [split_loop, ← hk']
    | some f =>
      have h1 : 2 * k + 1 < as.length := by
        by_contra hc
        rw [ptr_eq_none.2 (by omega)] at hfast
        cases hfast
      have hn := get_next_ptr hl h1
      rw [hfast] at hn
      cases hfn : ptr as (2 * k + 1 + 1) with
      | none =>
        have := ptr_eq_none.1 hfn
        have hk' : k = (as.length - 1) / 2 := by omega
        simp [split_loop, hn, hfn, ← hk']
      | some g =>
        have h2 : 2 * k + 1 + 1 < as.length := by
          by_contra hc
          rw [ptr_eq_none.2 (by omega)] at hfn
          cases hfn
        have hs := get_next_ptr (i := k) hl (by omega)
        have hg := get_next_ptr hl h2
        rw [hfn] at hg
        have ih := split_loop_spec hl hne fuel (k + 1) (by omega) (by omega)
        have e : 2 * (k + 1) + 1 = 2 * k + 1 + 1 + 1 := by ring
        rw [e] at ih
        simp [split_loop, hn, hfn, hs, hg, ih]

theorem store_indirect_spec {m : Heap} (cur ind p : Option Nat)
    (hind : ∀ l, ind = some l → ∃ e, m l = some e) :
    ∃ m1 cur1, store_indirect m cur ind p = .ok (m1, cur1) ∧ SameValues m m1 ∧
      (∀ b, some b ≠ ind → m1 b = m b) ∧ Stored m1 cur cur1 ind p := by
  cases ind with
  | none => exact ⟨m, p, rfl, SameValues.refl m, fun _ _ => rfl, rfl⟩
  | some l =>
    obtain ⟨e, he⟩ := hind l rfl
    refine ⟨m.write l (some { e with next := p }), cur, ?_, SameValues.write_next he p, ?_, ?_⟩
    · simp [store_indirect, set_next_of he]
    · intro b hb
      exact write_other _ _ (fun e => hb (by rw [e]))
    · exact ⟨rfl, _, write_same _ _ _, rfl⟩

theorem bind_assoc {α β γ : Type} (x : Res α) (f : α → Res β) (g : β → Res γ) :
    (x.bind f).bind g = x.bind fun a => (f a).bind g := by
  cases x <;> rfl

theorem get_value_of {m : Heap} {a : Nat} {e : list_ele_t} (h : m a = some e) :
    get_value m (some a) = .ok e.value := by
  simp [get_value, load, h]

theorem bind_ok_right {α : Type} (x : Res α) : (x.bind fun r => .ok r) = x := by
  cases x <;> rfl

theorem value_at_of {m : Heap} {a : Nat} {e : list_ele_t} (h : m a = some e) :
    value_at m a = e.value := by
  simp [value_at, h]

theorem merge_run_exit_left {m : Heap} (cur ind : Option Nat) (y : Nat) (fuel : Nat) :
    merge_run (fuel + 1) ⟨m, cur, ind, none, some y⟩ = store_indirect m cur ind (some y) := by
  simp [merge_run, merge_loop, merge_finish, bind_ok_right]

theorem merge_run_exit_right {m : Heap} (cur ind : Option Nat) (x : Nat) (fuel : Nat) :
    merge_run (fuel + 1) ⟨m, cur, ind, some x, none⟩ = store_indirect m cur ind (some x) := by
  simp [merge_run, merge_loop, merge_finish, bind_ok_right]

theorem merge_run_step {m : Heap} (cur ind : Option Nat) (x y : Nat) (fuel : Nat) :
    merge_run (fuel + 1) ⟨m, cur, ind, some x, some y⟩ =
      (get_value m (some x)).bind fun sv =>
      (get_value m (some y)).bind fun fv =>
      (strcmp sv fv).bind fun c =>
        if c ≥ 0 then
          (store_indirect m cur ind (some x)).bind fun r =>
          (get_next r.1 (some x)).bind fun slow1 =>
          merge_run fuel ⟨r.1, r.2, some x, slow1, some y⟩
        else
          (store_indirect m cur ind (some y)).bind fun r =>
          (get_next r.1 (some y)).bind fun fast1 =>
          merge_run fuel ⟨r.1, r.2, some y, some x, fast1⟩ := by
  simp only [merge_run, merge_loop, bind_assoc]
  congr 1; funext sv; congr 1; funext fv; congr 1; funext c
  split <;> simp only [bind_assoc]

/-- The merge loop and the stores that follow it link the nodes of the two chains
in the order of `List.merge`, taking from the first chain when `strcmp` is
non-negative. -/
theorem merge_run_spec : ∀ (fuel : Nat) (xs ys : List Nat) (m : Heap) (cur ind : Option Nat),
    lseg m xs none → lseg m ys none → (xs ++ ys).Nodup → (xs ≠ [] ∨ ys ≠ []) →
    (∀ l, ind = some l → (∃ e, m l = some e) ∧ l ∉ xs ++ ys) →
    xs.length + ys.length < fuel →
    (merge_run fuel ⟨m, cur, ind, hd xs none, hd ys none⟩ = .ub ∧ ¬ AllPresent m (xs ++ ys)) ∨
    ∃ m' cur', merge_run fuel ⟨m, cur, ind, hd xs none, hd ys none⟩ = .ok (m', cur') ∧
      lseg m' (List.merge xs ys (ge_at m)) none ∧ SameValues m m' ∧
      (∀ b, b ∉ xs ++ ys → some b ≠ ind → m' b = m b) ∧
      Stored m' cur cur' ind (hd (List.merge xs ys (ge_at m)) none)
  | 0, _, _, _, _, _, _, _, _, _, _, hf => by omega
  | fuel + 1, [], [], _, _, _, _, _, _, hne, _, _ => by simp at hne
  | fuel + 1, [], y :: ys, m, cur, ind, _, hys, _, _, hind, _ => by
    right
    obtain ⟨m1, cur1, hst, hsv, hfr, hsto⟩ :=
      store_indirect_spec (m := m) cur ind (some y) (fun l hl => (hind l hl).1)
    refine ⟨m1, cur1, ?_, ?_, hsv, fun b _ hb => hfr b hb, ?_⟩
    · rw [hd_nil, hd_cons, merge_run_exit_left, hst]
    · rw [List.nil_merge]
      refine lseg_frame (fun b hb => hfr b ?_) hys
      rintro rfl
      exact (hind b rfl).2 (by simpa using hb)
    · rw [List.nil_merge]; exact hsto
  | fuel + 1, x :: xs, [], m, cur, ind, hxs, _, _, _, hind, _ => by
    right
    obtain ⟨m1, cur1, hst, hsv, hfr, hsto⟩ :=
      store_indirect_spec (m := m) cur ind (some x) (fun l hl => (hind l hl).1)
    refine ⟨m1, cur1, ?_, ?_, hsv, fun b _ hb => hfr b hb, ?_⟩
    · rw [hd_nil, hd_cons, merge_run_exit_right, hst]
    · rw [List.merge_right]
      refine lseg_frame (fun b hb => hfr b ?_) hxs
      rintro rfl
      exact (hind b rfl).2 (by simpa using hb)
    · rw [List.merge_right]; exact hsto
  | fuel + 1, x :: xs, y :: ys, m, cur, ind, hxs, hys, hnd, _, hind, hf => by
    obtain ⟨⟨ex, hex, hexn⟩, hxs'⟩ := hxs
    obtain ⟨⟨ey, hey, heyn⟩, hys'⟩ := hys
    have hxs0 : lseg m (x :: xs) none := ⟨⟨ex, hex, hexn⟩, hxs'⟩
    have hys0 : lseg m (y :: ys) none := ⟨⟨ey, hey, heyn⟩, hys'⟩
    simp only [hd_cons]
    rw [merge_run_step, get_value_of hex, get_value_of hey]
    simp only [bind_ok]
    cases hvx : ex.value with
    | none =>
      left
      refine ⟨by simp [strcmp], fun hall => ?_⟩
      have := hall x (by simp)
      rw [value_at_of hex, hvx] at this
      cases this
    | some vx =>
      cases hvy : ey.value with
      | none =>
        left
        refine ⟨by simp [strcmp], fun hall => ?_⟩
        have := hall y (by simp)
        rw [value_at_of hey, hvy] at this
        cases this
      | some vy =>
        have hge : ge_at m x y = decide (0 ≤ strcmp_bytes vx vy) := by
          simp [ge_at, str_at, value_at_of hex, value_at_of hey, hvx, hvy]
        simp only [strcmp, bind_ok, ge_iff_le]
        obtain ⟨hx_nd, hnd'⟩ := List.nodup_cons.1 (by simpa using hnd : (x :: (xs ++ y :: ys)).Nodup)
        have hy_nd : y ∉ x :: xs ++ ys := by
          have h1 : ((x :: xs) ++ y :: ys).Perm (y :: ((x :: xs) ++ ys)) := List.perm_middle
          have h2 := h1.nodup_iff.1 (by simpa using hnd)
          simpa using (List.nodup_cons.1 h2).1
        have hnd_y : (x :: xs ++ ys).Nodup := by
          have h1 : ((x :: xs) ++ y :: ys).Perm (y :: ((x :: xs) ++ ys)) := List.perm_middle
          have h2 := h1.nodup_iff.1 (by simpa using hnd)
          simpa using (List.nodup_cons.1 h2).2
        by_cases hc : 0 ≤ strcmp_bytes vx vy
        · -- the node of the first chain is taken
          rw [if_pos hc]
          obtain ⟨m1, cur1, hst, hsv, hfr, hsto⟩ :=
            store_indirect_spec (m := m) cur ind (some x) (fun l hl => (hind l hl).1)
          have hxi : some x ≠ ind := fun e => (hind x e.symm).2 (by simp)
          have hm1x : m1 x = some ex := by rw [hfr x hxi]; exact hex
          have hkeep : ∀ b ∈ x :: xs ++ y :: ys, m1 b = m b := by
            intro b hb
            refine hfr b ?_
            rintro rfl
            exact (hind b rfl).2 hb
          rw [hst]
          simp only [bind_ok, get_next_of hm1x, hexn]
          have ih := merge_run_spec fuel xs (y :: ys) m1 cur1 (some x)
            (lseg_frame (fun b hb => hkeep b (by simp [hb])) hxs')
            (lseg_frame (fun b hb => hkeep b (by
              simp only [List.cons_append, List.mem_cons, List.mem_append] at hb ⊢; tauto)) hys0)
            hnd' (Or.inr (by simp))
            (fun l hl => by
              cases hl
              exact ⟨⟨ex, hm1x⟩, hx_nd⟩)
            (by simp at hf ⊢; omega)
          simp only [hd_cons] at ih
          have hmerge : List.merge (x :: xs) (y :: ys) (ge_at m) =
              x :: List.merge xs (y :: ys) (ge_at m) := by
            rw [List.cons_merge_cons, if_pos (by rw [hge]; simpa using hc)]
          rw [hmerge, hsv.ge_at] at *
          rcases ih with ⟨hub, hnp⟩ | ⟨m', cur', hrun, hl', hsv', hfr', hsto'⟩
          · left
            refine ⟨hub, fun hall => hnp ?_⟩
            rw [hsv.allPresent]
            intro b hb
            exact hall b (by
              simp only [List.cons_append, List.mem_cons, List.mem_append] at hb ⊢; tauto)
          · right
            obtain ⟨hcur', e', he', hen'⟩ := hsto'
            refine ⟨m', cur', hrun, ⟨⟨e', he', hen'⟩, hl'⟩, hsv.trans hsv', ?_, ?_⟩
            · intro b hb hbi
              have hbx : b ≠ x := fun e => hb (by simp [e])
              rw [hfr' b (fun hmem => hb (by
                simp only [List.cons_append, List.mem_cons, List.mem_append] at hmem ⊢; tauto))
                (fun e => hbx (Option.some.inj e)), hfr b hbi]
            · cases ind with
              | none =>
                show cur' = some x
                rw [hcur']; exact hsto
              | some l =>
                obtain ⟨hc1, e1, he1, hen1⟩ := hsto
                refine ⟨hcur'.trans hc1, e1, ?_, hen1⟩
                have hl := (hind l rfl).2
                have hlx : l ≠ x := fun e => hl (by simp [e])
                rw [hfr' l (fun hmem => hl (by
                  simp only [List.cons_append, List.mem_cons, List.mem_append] at hmem ⊢; tauto))
                  (fun e => hlx (Option.some.inj e))]
                exact he1
        · -- the node of the second chain is taken
          rw [if_neg hc]
          obtain ⟨m1, cur1, hst, hsv, hfr, hsto⟩ :=
            store_indirect_spec (m := m) cur ind (some y) (fun l hl => (hind l hl).1)
          have hyi : some y ≠ ind := fun e => (hind y e.symm).2 (by simp)
          have hm1y : m1 y = some ey := by rw [hfr y hyi]; exact hey
          have hkeep : ∀ b ∈ x :: xs ++ y :: ys, m1 b = m b := by
            intro b hb
            refine hfr b ?_
            rintro rfl
            exact (hind b rfl).2 hb
          rw [hst]
          simp only [bind_ok, get_next_of hm1y, heyn]
          have ih := merge_run_spec fuel (x :: xs) ys m1 cur1 (some y)
            (lseg_frame (fun b hb => hkeep b (by
              simp only [List.cons_append, List.mem_cons, List.mem_append] at hb ⊢; tauto)) hxs0)
            (lseg_frame (fun b hb => hkeep b (by simp [hb])) hys')
            hnd_y (Or.inl (by simp))
            (fun l hl => by
              cases hl
              exact ⟨⟨ey, hm1y⟩, hy_nd⟩)
            (by simp at hf ⊢; omega)
          simp only [hd_cons] at ih
          have hmerge : List.merge (x :: xs) (y :: ys) (ge_at m) =
              y :: List.merge (x :: xs) ys (ge_at m) := by
            rw [List.cons_merge_cons, if_neg (by rw [hge]; simpa using hc)]
          rw [hmerge, hsv.ge_at] at *
          rcases ih with ⟨hub, hnp⟩ | ⟨m', cur', hrun, hl', hsv', hfr', hsto'⟩
          · left
            refine ⟨hub, fun hall => hnp ?_⟩
            rw [hsv.allPresent]
            intro b hb
            exact hall b (by
              simp only [List.cons_append, List.mem_cons, List.mem_append] at hb ⊢; tauto)
          · right
            obtain ⟨hcur', e', he', hen'⟩ := hsto'
            refine ⟨m', cur', hrun, ⟨⟨e', he', hen'⟩, hl'⟩, hsv.trans hsv', ?_, ?_⟩
            · intro b hb hbi
              have hby : b ≠ y := fun e => hb (by simp [e])
              rw [hfr' b (fun hmem => hb (by
                simp only [List.cons_append, List.mem_cons, List.mem_append] at hmem ⊢; tauto))
                (fun e => hby (Option.some.inj e)), hfr b hbi]
            · cases ind with
              | none =>
                show cur' = some y
                rw [hcur']; exact hsto
              | some l =>
                obtain ⟨hc1, e1, he1, hen1⟩ := hsto
                refine ⟨hcur'.trans hc1, e1, ?_, hen1⟩
                have hl := (hind l rfl).2
                have hly : l ≠ y := fun e => hl (by simp [e])
                rw [hfr' l (fun hmem => hl (by
                  simp only [List.cons_append, List.mem_cons, List.mem_append] at hmem ⊢; tauto))
                  (fun e => hly (Option.some.inj e))]
                exact he1

theorem merge_sort_unfold (fuel : Nat) (m : Heap) (head : Option Nat) :
    merge_sort (fuel + 1) m head =
      (get_next m head).bind fun hn =>
        if hn = none then .ok (m, head)
        else
          (split_loop fuel m head hn).bind fun slow =>
          (get_next m slow).bind fun fast =>
          (set_next m slow none).bind fun m1 =>
          (merge_sort fuel m1 head).bind fun r1 =>
          (merge_sort fuel r1.1 fast).bind fun r2 =>
          merge_run fuel ⟨r2.1, none, none, r1.2, r2.2⟩ := rfl

/-- Cutting a chain after its node of index `k` gives two chains. -/
theorem lseg_cut {m : Heap} : ∀ {as : List Nat} {k : Nat}, lseg m as none → k < as.length →
    ∃ s es, ptr as k = some s ∧ s ∈ as ∧ m s = some es ∧
      lseg (m.write s (some { es with next := none })) (as.take (k + 1)) none ∧
      lseg (m.write s (some { es with next := none })) (as.drop (k + 1)) none
  | [], _, _, h => by simp at h
  | a :: as, 0, hl, _ => by
    obtain ⟨⟨e, he, hn⟩, hr⟩ := hl
    have hnd := List.nodup_cons.1 (lseg_nodup (show lseg m (a :: as) none from ⟨⟨e, he, hn⟩, hr⟩))
    refine ⟨a, e, rfl, by simp, he, ?_, ?_⟩
    · simp only [zero_add, List.take_succ_cons, List.take_zero]
      exact ⟨⟨_, write_same _ _ _, rfl⟩, trivial⟩
    · simp only [zero_add, List.drop_succ_cons, List.drop_zero]
      exact lseg_frame (fun b hb => write_other _ _ (fun e => hnd.1 (e ▸ hb))) hr
  | a :: as, k + 1, hl, h => by
    obtain ⟨⟨e, he, hn⟩, hr⟩ := hl
    have hnd := List.nodup_cons.1 (lseg_nodup (show lseg m (a :: as) none from ⟨⟨e, he, hn⟩, hr⟩))
    obtain ⟨s, es, hp, hs, hes, h1, h2⟩ := lseg_cut (k := k) hr (by simpa using h)
    have has : a ≠ s := fun e => hnd.1 (e ▸ hs)
    refine ⟨s, es, by simpa [ptr] using hp, List.mem_cons_of_mem _ hs, hes, ?_, ?_⟩
    · rw [List.take_succ_cons]
      refine ⟨⟨e, ?_, ?_⟩, h1⟩
      · rw [write_other _ _ has]; exact he
      · rw [hn]
        cases as with
        | nil => simp at h
        | cons b bs => rfl
    · rw [List.drop_succ_cons]; exact h2

theorem mergeSort_cons_cons (le : Nat → Nat → Bool) (a b : Nat) (xs : List Nat) :
    (a :: b :: xs).mergeSort le =
      List.merge (((a :: b :: xs).take ((xs.length + 2 - 1) / 2 + 1)).mergeSort le)
        (((a :: b :: xs).drop ((xs.length + 2 - 1) / 2 + 1)).mergeSort le) le := by
  rw [List.mergeSort]
  have e : ((a :: b :: xs).length + 1) / 2 = (xs.length + 2 - 1) / 2 + 1 := by
    simp only [List.length_cons]; omega
  simp only [List.splitInTwo_fst, List.splitInTwo_snd, e]

/-- The function `merge_sort` relinks a chain in the order of the list-level stable
merge sort whose comparison is `strcmp(a->value, b->value) >= 0`; it has undefined
behaviour only when it compares a `NULL` value. -/
theorem merge_sort_spec : ∀ (fuel : Nat) (as : List Nat) (m : Heap),
    as ≠ [] → lseg m as none → as.length + 1 < fuel →
    (merge_sort fuel m (hd as none) = .ub ∧ ¬ AllPresent m as) ∨
    ∃ m', merge_sort fuel m (hd as none) = .ok (m', hd (as.mergeSort (ge_at m)) none) ∧
      lseg m' (as.mergeSort (ge_at m)) none ∧ SameValues m m' ∧ (∀ b, b ∉ as → m' b = m b)
  | 0, _, _, _, _, hf => by omega
  | _ + 1, [], _, hne, _, _ => by simp at hne
  | fuel + 1, [a], m, _, hl, _ => by
    right
    obtain ⟨⟨e, he, hn⟩, _⟩ := hl
    refine ⟨m, ?_, ?_, SameValues.refl m, fun _ _ => rfl⟩
    · simp only [hd_nil] at hn
      simp [merge_sort_unfold, get_next_of he, hn]
    · simpa using (⟨⟨e, he, hn⟩, trivial⟩ : lseg m [a] none)
  | fuel + 1, a :: b :: xs, m, _, hl, hf => by
    have hlen : (a :: b :: xs).length = xs.length + 2 := rfl
    rw [hlen] at hf
    have hnd := lseg_nodup hl
    obtain ⟨e, he, hn⟩ := hl.1
    -- the split
    have hsplit := split_loop_spec hl (by simp) fuel 0 (Nat.zero_le _) (by rw [hlen]; omega)
    rw [hlen] at hsplit
    obtain ⟨s, es, hp, hs, hes, hL, hR⟩ :=
      lseg_cut (k := (xs.length + 2 - 1) / 2) hl (by rw [hlen]; omega)
    have hfast := get_next_ptr (i := (xs.length + 2 - 1) / 2) hl (by rw [hlen]; omega)
    rw [hp] at hsplit hfast
    rw [mergeSort_cons_cons]
    generalize hLdef : (a :: b :: xs).take ((xs.length + 2 - 1) / 2 + 1) = L at *
    generalize hRdef : (a :: b :: xs).drop ((xs.length + 2 - 1) / 2 + 1) = Rt at *
    have happ : L ++ Rt = a :: b :: xs := by rw [← hLdef, ← hRdef]; exact List.take_append_drop _ _
    have hLlen : L.length = (xs.length + 2 - 1) / 2 + 1 := by
      rw [← hLdef, List.length_take, hlen]; omega
    have hRlen : Rt.length = xs.length + 2 - ((xs.length + 2 - 1) / 2 + 1) := by
      rw [← hRdef, List.length_drop, hlen]
    have hLne : L ≠ [] := by intro e; rw [e] at hLlen; simp at hLlen
    have hRne : Rt ≠ [] := by intro e; rw [e] at hRlen; simp at hRlen; omega
    have hLhd : hd L none = some a := by
      rw [← hLdef, List.take_succ_cons]; rfl
    have hRhd : ptr (a :: b :: xs) ((xs.length + 2 - 1) / 2 + 1) = hd Rt none := by
      rw [ptr, hRdef]
    rw [hRhd] at hfast
    have hnd2 : (L ++ Rt).Nodup := by rw [happ]; exact hnd
    have hdisj := (List.nodup_append.1 hnd2).2.2
    have hmem : ∀ c, c ∈ a :: b :: xs ↔ c ∈ L ∨ c ∈ Rt := by
      intro c; rw [← happ, List.mem_append]
    have hsv1 : SameValues m (m.write s (some { es with next := none })) :=
      SameValues.write_next hes none
    have hfr1 : ∀ c, c ∉ a :: b :: xs → (m.write s (some { es with next := none })) c = m c :=
      fun c hc => write_other _ _ (fun e => hc (e ▸ hs))
    have hstart : merge_sort (fuel + 1) m (hd (a :: b :: xs) none) =
        (merge_sort fuel (m.write s (some { es with next := none })) (hd L none)).bind fun r1 =>
        (merge_sort fuel r1.1 (hd Rt none)).bind fun r2 =>
        merge_run fuel ⟨r2.1, none, none, r1.2, r2.2⟩ := by
      have hb : ptr (a :: b :: xs) (2 * 0 + 1) = some b := rfl
      have ha : ptr (a :: b :: xs) 0 = some a := rfl
      rw [hb, ha] at hsplit
      simp only [hd_cons] at hn
      simp only [merge_sort_unfold, hd_cons, get_next_of he, hn, bind_ok, hsplit, hfast,
        set_next_of hes, hLhd]
      simp
    rw [hstart]
    -- the first half
    rcases merge_sort_spec fuel L _ hLne hL (by omega) with ⟨hub, hnp⟩ | ⟨m2, hrun2, hl2, hsv2, hfr2⟩
    · left
      refine ⟨by rw [hub]; rfl, fun hall => hnp ?_⟩
      rw [hsv1.allPresent]
      exact fun c hc => hall c ((hmem c).2 (Or.inl hc))
    rw [hsv1.ge_at] at hl2 hrun2
    rw [hrun2, bind_ok]
    simp only []
    -- the second half
    have hR2 : lseg m2 Rt none :=
      lseg_frame (fun c hc => hfr2 c (fun hcl => hdisj hcl hc)) hR
    rcases merge_sort_spec fuel Rt m2 hRne hR2 (by omega) with
      ⟨hub, hnp⟩ | ⟨m3, hrun3, hl3, hsv3, hfr3⟩
    · left
      refine ⟨by rw [hub]; rfl, fun hall => hnp ?_⟩
      rw [hsv2.allPresent, hsv1.allPresent]
      exact fun c hc => hall c ((hmem c).2 (Or.inr hc))
    rw [hsv2.ge_at, hsv1.ge_at] at hl3 hrun3
    rw [hrun3, bind_ok]
    simp only []
    -- the merge
    have hpL : (L.mergeSort (ge_at m)).Perm L := List.mergeSort_perm L _
    have hpR : (Rt.mergeSort (ge_at m)).Perm Rt := List.mergeSort_perm Rt _
    have hl2' : lseg m3 (L.mergeSort (ge_at m)) none :=
      lseg_frame (fun c hc => hfr3 c (fun hcr => hdisj (hpL.mem_iff.1 hc) hcr)) hl2
    have hnd3 : (L.mergeSort (ge_at m) ++ Rt.mergeSort (ge_at m)).Nodup :=
      (List.Perm.append hpL hpR).nodup_iff.2 hnd2
    have hlen3 : (L.mergeSort (ge_at m)).length + (Rt.mergeSort (ge_at m)).length < fuel := by
      rw [List.length_mergeSort, List.length_mergeSort, hLlen, hRlen]; omega
    have hmem3 : ∀ c, c ∈ L.mergeSort (ge_at m) ++ Rt.mergeSort (ge_at m) ↔ c ∈ a :: b :: xs := by
      intro c
      rw [(List.Perm.append hpL hpR).mem_iff, happ]
    rcases merge_run_spec fuel _ _ m3 none none hl2' hl3 hnd3
        (Or.inl (fun e => hLne (by simpa [e] using hpL.symm.length_eq))) (fun l hl => by cases hl) hlen3 with
      ⟨hub, hnp⟩ | ⟨m4, cur4, hrun4, hl4, hsv4, hfr4, hsto4⟩
    · left
      refine ⟨hub, fun hall => hnp ?_⟩
      rw [hsv3.allPresent, hsv2.allPresent, hsv1.allPresent]
      exact fun c hc => hall c ((hmem3 c).1 hc)
    right
    have hge3 : ge_at m3 = ge_at m := by rw [hsv3.ge_at, hsv2.ge_at, hsv1.ge_at]
    rw [hge3] at hl4 hsto4
    have hcur : cur4 = hd (List.merge (L.mergeSort (ge_at m)) (Rt.mergeSort (ge_at m)) (ge_at m))
        none := hsto4
    refine ⟨m4, by rw [hrun4, hcur], hl4, ((hsv1.trans hsv2).trans hsv3).trans hsv4, ?_⟩
    intro c hc
    rw [hfr4 c (fun h => hc ((hmem3 c).1 h)) (by simp), hfr3 c (fun h => hc ((hmem c).2 (Or.inr h))),
      hfr2 c (fun h => hc ((hmem c).2 (Or.inl h))), hfr1 c hc]

theorem ptr_of_mem : ∀ {as : List Nat} {a : Nat}, a ∈ as → ∃ i, i < as.length ∧ ptr as i = some a
  | b :: as, a, h => by
    rcases List.mem_cons.1 h with rfl | h
    · exact ⟨0, by simp, rfl⟩
    · obtain ⟨i, hi, hp⟩ := ptr_of_mem h
      exact ⟨i + 1, by simpa using hi, by simpa [ptr] using hp⟩

theorem ptr_last : ∀ (as : List Nat), ptr as (as.length - 1) = as.getLast?
  | [] => rfl
  | [a] => rfl
  | a :: b :: as => by
    have := ptr_last (b :: as)
    simp only [List.length_cons, Nat.add_sub_cancel] at this ⊢
    rw [List.getLast?_cons_cons, ← this]
    simp [ptr]

/-- The walk of `q_sort` from any node of the chain stops on its last node. -/
theorem tail_loop_spec {m : Heap} {as : List Nat} (hl : lseg m as none) :
    ∀ (fuel i : Nat), i < as.length → as.length - i ≤ fuel →
      tail_loop fuel m (ptr as i) = .ok as.getLast?
  | 0, i, hi, hf => by omega
  | fuel + 1, i, hi, hf => by
    have hn := get_next_ptr hl hi
    cases hp : ptr as i with
    | none =>
      have := ptr_eq_none.1 hp
      omega
    | some t =>
      rw [hp] at hn
      cases hp1 : ptr as (i + 1) with
      | none =>
        have h1 := ptr_eq_none.1 hp1
        have hi' : i = as.length - 1 := by omega
        have := ptr_last as
        rw [← hi', hp] at this
        rw [← this]
        simp [tail_loop, hn, hp1]
      | some u =>
        have h1 : i + 1 < as.length := by
          by_contra hc
          rw [ptr_eq_none.2 (by omega)] at hp1
          cases hp1
        have ih := tail_loop_spec hl fuel (i + 1) h1 (by omega)
        rw [hp1] at ih
        simp [tail_loop, hn, hp1, ih]

theorem mergeSort_short (le : Nat → Nat → Bool) {as : List Nat} (h : as.length < 2) :
    as.mergeSort le = as := by
  match as, h with
  | [], _ => simp
  | [_], _ => simp

/-- Effect of `q_sort` on a well-formed queue: the nodes are relinked in the order of
the list-level stable merge sort; the run has undefined behaviour only when a
`NULL` value is compared. -/
theorem q_sort_spec {m : Heap} {q : queue_t} {as : List Nat} (hq : IsQueue m q as)
    (fuel : Nat) (hf : as.length + 1 < fuel) :
    (q_sort fuel m (some q) = .ub ∧ ¬ AllPresent m as) ∨
    ∃ m' q', q_sort fuel m (some q) = .ok (m', some q') ∧
      IsQueue m' q' (as.mergeSort (ge_at m)) ∧ SameValues m m' ∧ (∀ b, b ∉ as → m' b = m b) ∧
      (as.length < 2 → m' = m ∧ q' = q) := by
  have hsz := hq.size_eq
  by_cases hlen : as.length < 2
  · right
    have hlt : q.size.val < 2 := by rw [hsz]; exact_mod_cast hlen
    refine ⟨m, q, by simp [q_sort, hlt], ?_, SameValues.refl m, fun _ _ => rfl,
      fun _ => ⟨rfl, rfl⟩⟩
    rw [mergeSort_short _ hlen]; exact hq
  · have hge : ¬ q.size.val < 2 := by rw [hsz]; exact_mod_cast hlen
    have hne : as ≠ [] := by rintro rfl; simp at hlen
    rcases merge_sort_spec fuel as m hne hq.links hf with ⟨hub, hnp⟩ | ⟨m', hrun, hl', hsv, hfr⟩
    · left
      refine ⟨?_, hnp⟩
      simp [q_sort, hge, hq.head_eq, hub]
    · right
      have hperm : (as.mergeSort (ge_at m)).Perm as := List.mergeSort_perm as _
      obtain ⟨t, ht⟩ : ∃ t, as.getLast? = some t := by
        cases h : as.getLast? with
        | none => exact absurd (getLast?_eq_none_iff'.1 h) hne
        | some t => exact ⟨t, rfl⟩
      have htmem : t ∈ as.mergeSort (ge_at m) :=
        hperm.mem_iff.2 (List.mem_of_getLast?_eq_some ht)
      obtain ⟨i, hi, hp⟩ := ptr_of_mem htmem
      have htail := tail_loop_spec hl' fuel i hi (by
        rw [List.length_mergeSort]; omega)
      rw [hp] at htail
      refine ⟨m', { head := hd (as.mergeSort (ge_at m)) none,
                    tail := (as.mergeSort (ge_at m)).getLast?, size := q.size }, ?_,
        ⟨rfl, hl', rfl, ?_⟩, hsv, hfr, fun h => absurd h hlen⟩
      · simp [q_sort, hge, hq.head_eq, hrun, hq.tail_eq, ht, htail]
      · simp [hsz]

theorem strcmp_bytes_antisymm : ∀ (x y : List Nat), strcmp_bytes y x = - strcmp_bytes x y
  | [], [] => by simp [strcmp_bytes]
  | [], b :: _ => by simp [strcmp_bytes]
  | a :: _, [] => by simp [strcmp_bytes]
  | a :: as, b :: bs => by
    have ih := strcmp_bytes_antisymm as bs
    simp only [strcmp_bytes]
    by_cases hab : a = b
    · subst hab
      by_cases ha : a = 0
      · simp [ha]
      · simp [ha, ih]
    · have hba : b ≠ a := fun e => hab e.symm
      simp [hab, hba]

theorem strcmp_bytes_trans : ∀ (x y z : List Nat),
    0 ≤ strcmp_bytes x y → 0 ≤ strcmp_bytes y z → 0 ≤ strcmp_bytes x z
  | [], [], _, _, h => h
  | [], b :: _, [], _, _ => by simp [strcmp_bytes]
  | [], b :: bs, c :: cs, h1, h2 => by
    simp only [strcmp_bytes] at h1 h2 ⊢
    have hb : b = 0 := by omega
    subst hb
    by_cases hc : 0 = c
    · subst hc; simp
    · simp [hc] at h2; omega
  | a :: _, [], [], _, _ => by simp [strcmp_bytes]
  | a :: as, [], c :: cs, h1, h2 => by
    simp only [strcmp_bytes] at h1 h2 ⊢
    have hc : c = 0 := by omega
    subst hc
    by_cases ha : a = 0
    · simp [ha]
    · simp [ha]
  | a :: as, b :: bs, [], h1, h2 => by
    simp only [strcmp_bytes] at h1 h2 ⊢
    omega
  | a :: as, b :: bs, c :: cs, h1, h2 => by
    have ih := strcmp_bytes_trans as bs cs
    simp only [strcmp_bytes] at h1 h2 ⊢
    by_cases hab : a = b
    · subst hab
      by_cases hac : a = c
      · subst hac
        by_cases ha : a = 0
        · simp [ha]
        · simp [ha] at h1 h2 ⊢
          exact ih h1 h2
      · simp [hac] at h2 ⊢
        omega
    · by_cases hbc : b = c
      · subst hbc
        simp [hab] at h1 ⊢
        omega
      · simp [hab] at h1
        simp [hbc] at h2
        have hac : a ≠ c := by omega
        simp [hac]
        omega

theorem ge_at_trans (m : Heap) (a b c : Nat) : ge_at m a b → ge_at m b c → ge_at m a c := by
  simp only [ge_at, decide_eq_true_eq]
  exact strcmp_bytes_trans _ _ _

theorem ge_at_total (m : Heap) (a b : Nat) : (ge_at m a b || ge_at m b a) = true := by
  simp only [ge_at, Bool.or_eq_true, decide_eq_true_eq]
  rw [strcmp_bytes_antisymm (str_at m a) (str_at m b)]
  omega

theorem isQueue_unique {m m' : Heap} {q q' : queue_t} {as : List Nat}
    (h : IsQueue m q as) (h' : IsQueue m' q' as) : q = q' := by
  have h1 := h.head_eq.trans h'.head_eq.symm
  have h2 := h.tail_eq.trans h'.tail_eq.symm
  have h3 := h.size_eq.trans h'.size_eq.symm
  obtain ⟨hd1, tl1, ⟨sz1, p1⟩⟩ := q
  obtain ⟨hd2, tl2, ⟨sz2, p2⟩⟩ := q'
  simp only at h1 h2 h3
  subst h1 h2 h3
  rfl

/-- Two heaps that hold the same chain with the same values, and agree elsewhere,
are equal. -/
theorem heap_eq_of_lseg {m m' : Heap} {as : List Nat} (hl : lseg m as none)
    (hl' : lseg m' as none) (hsv : SameValues m m') (hfr : ∀ b, b ∉ as → m' b = m b) :
    m' = m := by
  have key : ∀ (bs : List Nat) (q : Option Nat), lseg m bs q → lseg m' bs q →
      ∀ b ∈ bs, m' b = m b := by
    intro bs q
    induction bs with
    | nil => simp
    | cons c cs ih =>
      rintro ⟨⟨e, he, hn⟩, hr⟩ ⟨⟨e', he', hn'⟩, hr'⟩ b hb
      rcases List.mem_cons.1 hb with rfl | hb
      · have hv := hsv b
        rw [he, he'] at hv ⊢
        simp only [Option.map_some', Option.some.injEq] at hv
        cases e; cases e'
        simp_all
      · exact ih hr hr' b hb
  funext b
  by_cases hb : b ∈ as
  · exact key as none hl hl' b hb
  · exact hfr b hb

theorem lseg_last_next {m : Heap} {as : List Nat} {t : Nat} (hl : lseg m as none)
    (ht : as.getLast? = some t) : get_next m (some t) = .ok none := by
  rcases List.eq_nil_or_concat as with rfl | ⟨pre, u, rfl⟩
  · simp at ht
  · rw [List.concat_eq_append] at ht hl
    rw [getLast?_snoc] at ht
    cases ht
    obtain ⟨-, ⟨e, he, hn⟩, -⟩ := lseg_append.1 hl
    rw [get_next_of he, hn]; rfl

theorem IsQueue.facts {m : Heap} {q : queue_t} {as : List Nat} (hq : IsQueue m q as) :
    (q.size.val = 0 ↔ q.head = none) ∧ (q.head = none ↔ q.tail = none) ∧
    (q.size.val = 1 → q.head = q.tail) ∧
    (∀ t, q.tail = some t → get_next m (some t) = .ok none) := by
  have h1 := hq.head_eq
  have h2 := hq.tail_eq
  have h3 := hq.size_eq
  refine ⟨?_, ?_, ?_, fun t ht => lseg_last_next hq.links (h2.symm.trans ht)⟩
  · rw [h1, h3, hd_eq_none]
    constructor
    · intro h; exact List.length_eq_zero.1 (by exact_mod_cast h)
    · rintro rfl; rfl
  · rw [h1, h2, hd_eq_none, getLast?_eq_none_iff']
  · intro h
    rw [h3] at h
    have hl : as.length = 1 := by exact_mod_cast h
    match as, hl with
    | [a], _ => rw [h1, h2]; rfl

theorem node_values_reverse (m : Heap) (as : List Nat) :
    node_values m as.reverse = (node_values m as).reverse := by
  simp [node_values, List.map_reverse]

theorem set_next_ne_fuel (m : Heap) (p v : Option Nat) : set_next m p v ≠ .fuel := by
  cases p with
  | none => exact fun h => Res.noConfusion h
  | some a =>
    cases hm : m a with
    | none =>
      simp only [set_next, hm]
      exact fun h => Res.noConfusion h
    | some e =>
      simp only [set_next, hm]
      exact fun h => Res.noConfusion h

/-- On a queue of `INT_MAX` nodes the increment of the count in `q_insert_head`
overflows. -/
theorem q_insert_head_overflow {m : Heap} {q : queue_t} {as : List Nat} (hq : IsQueue m q as)
    (s : Option (List Nat)) (a : Nat) (valloc : Bool) (hv : ¬ (s.isSome ∧ valloc = false))
    (hlen : ¬ as.length < 2147483647) :
    q_insert_head m (some q) s (some a) valloc = .ub := by
  have hsz := hq.size_eq
  have hov : (2147483647 : Int) < q.size.val + 1 := by
    rw [hsz]; omega
  simp only [q_insert_head, if_neg hv, int_result_overflow hov, bind_ub]

/-- On a queue of `INT_MAX` nodes the increment of the count in `q_insert_tail`
overflows. -/
theorem q_insert_tail_overflow {m : Heap} {q : queue_t} {as : List Nat} (hq : IsQueue m q as)
    (s : Option (List Nat)) (a : Nat) (valloc : Bool) (hv : ¬ (s.isSome ∧ valloc = false))
    (hlen : ¬ as.length < 2147483647) :
    q_insert_tail m (some q) s (some a) valloc = .ub := by
  have hsz := hq.size_eq
  have hov : (2147483647 : Int) < q.size.val + 1 := by
    rw [hsz]; omega
  simp only [q_insert_tail, if_neg hv, int_result_overflow hov, bind_ub]
  cases q.tail with
  | none => rfl
  | some t =>
    simp only []
    cases hsn : set_next (m.write a (some { value := s, next := none })) (some t) (some a) with
    | ok m2 => rfl
    | ub => rfl
    | fuel => exact absurd hsn (set_next_ne_fuel _ _ _)

theorem step_invariant {m : Heap} {q : queue_t} {as : List Nat} (hq : IsQueue m q as)
    (op : Op) (hm : op.malloc_ok m) {r : Heap × Option queue_t}
    (hr : step m (some q) op = .ok r) :
    ∃ qq as', r.2 = some qq ∧ IsQueue r.1 qq as' ∧ as'.length ≤ as.length + 1 := by
  cases op with
  | insert_head s newh valloc =>
    cases newh with
    | none =>
      simp only [step, q_insert_head, bind_ok, Res.ok.injEq] at hr
      subst hr
      exact ⟨q, as, rfl, hq, Nat.le_succ _⟩
    | some a =>
      by_cases hv : s.isSome ∧ valloc = false
      · simp only [step, q_insert_head, if_pos hv, bind_ok, Res.ok.injEq] at hr
        subst hr
        exact ⟨q, as, rfl, hq, Nat.le_succ _⟩
      · by_cases hlen : as.length < 2147483647
        · obtain ⟨m', q', hrun, hq', -⟩ := q_insert_head_spec hq s hm valloc (fun h => by
            by_contra hc
            exact hv ⟨h, by simpa using hc⟩) hlen
          simp only [step, hrun, bind_ok, Res.ok.injEq] at hr
          subst hr
          exact ⟨q', _, rfl, hq', by simp⟩
        · rw [step, q_insert_head_overflow hq s a valloc hv hlen] at hr
          exact Res.noConfusion hr
  | insert_tail s newt valloc =>
    cases newt with
    | none =>
      simp only [step, q_insert_tail, bind_ok, Res.ok.injEq] at hr
      subst hr
      exact ⟨q, as, rfl, hq, Nat.le_succ _⟩
    | some a =>
      by_cases hv : s.isSome ∧ valloc = false
      · simp only [step, q_insert_tail, if_pos hv, bind_ok, Res.ok.injEq] at hr
        subst hr
        exact ⟨q, as, rfl, hq, Nat.le_succ _⟩
      · by_cases hlen : as.length < 2147483647
        · obtain ⟨m', q', hrun, hq', -⟩ := q_insert_tail_spec hq s hm valloc (fun h => by
            by_contra hc
            exact hv ⟨h, by simpa using hc⟩) hlen
          simp only [step, hrun, bind_ok, Res.ok.injEq] at hr
          subst hr
          exact ⟨q', _, rfl, hq', by simp⟩
        · rw [step, q_insert_tail_overflow hq s a valloc hv hlen] at hr
          exact Res.noConfusion hr
  | remove_head sp bufsize =>
    cases as with
    | nil =>
      simp only [step, q_remove_head_empty hq, bind_ok, Res.ok.injEq] at hr
      subst hr
      exact ⟨q, [], rfl, hq, Nat.le_succ _⟩
    | cons a as =>
      obtain ⟨q', hq', hrun⟩ := q_remove_head_spec hq sp bufsize
      simp only [step, hrun] at hr
      cases hc : copy_out sp (value_at m a) bufsize with
      | ok sp1 =>
        simp only [hc, bind_ok, Res.ok.injEq] at hr
        subst hr
        exact ⟨q', as, rfl, hq', by simp only [List.length_cons]; omega⟩
      | ub => simp [hc] at hr
      | fuel => simp [hc] at hr

theorem run_invariant : ∀ (ops : List Op) {m : Heap} {q : queue_t} {as : List Nat},
    IsQueue m q as → MallocOk m (some q) ops → ∀ {r : Heap × Option queue_t},
    run m (some q) ops = .ok r → ∃ qq as', r.2 = some qq ∧ IsQueue r.1 qq as'
  | [], m, q, as, hq, _, r, hr => by
    simp only [run, Res.ok.injEq] at hr
    subst hr
    exact ⟨q, as, rfl, hq⟩
  | op :: ops, m, q, as, hq, hm, r, hr => by
    obtain ⟨hm1, hm2⟩ := hm
    simp only [run] at hr
    cases hs : step m (some q) op with
    | ok r1 =>
      rw [hs] at hr hm2
      obtain ⟨q1, as1, hq1, hI, -⟩ := step_invariant hq op hm1 hs
      simp only [bind_ok] at hr hm2
      rw [hq1] at hr hm2
      exact run_invariant ops hI hm2 hr
    | ub => simp [hs] at hr
    | fuel => simp [hs] at hr

theorem ex_isQueue : IsQueue ex_heap ex_queue [10, 11, 12] :=
  ⟨rfl, ⟨⟨_, rfl, rfl⟩, ⟨_, rfl, rfl⟩, ⟨_, rfl, rfl⟩, trivial⟩, rfl, rfl⟩

theorem ex_allPresent : AllPresent ex_heap [10, 11, 12] := by
  intro a ha
  simp only [List.mem_cons, List.mem_singleton, List.not_mem_nil, or_false] at ha
  rcases ha with rfl | rfl | rfl <;> rfl

theorem step_total {m : Heap} {q : queue_t} {as : List Nat} (hq : IsQueue m q as)
    (op : Op) (hm : op.malloc_ok m) (hb : op.no_buffer) (hlen : as.length < 2147483647) :
    ∃ r, step m (some q) op = .ok r := by
  cases op with
  | insert_head s newh valloc =>
    cases newh with
    | none => exact ⟨_, rfl⟩
    | some a =>
      by_cases hv : s.isSome ∧ valloc = false
      · exact ⟨(m, some q), by simp [step, q_insert_head, hv]⟩
      · obtain ⟨m', q', hrun, -⟩ := q_insert_head_spec hq s hm valloc (fun h => by
          by_contra hc
          exact hv ⟨h, by simpa using hc⟩) hlen
        exact ⟨_, by simp only [step, hrun, bind_ok]; rfl⟩
  | insert_tail s newt valloc =>
    cases newt with
    | none => exact ⟨_, rfl⟩
    | some a =>
      by_cases hv : s.isSome ∧ valloc = false
      · exact ⟨(m, some q), by simp [step, q_insert_tail, hv]⟩
      · obtain ⟨m', q', hrun, -⟩ := q_insert_tail_spec hq s hm valloc (fun h => by
          by_contra hc
          exact hv ⟨h, by simpa using hc⟩) hlen
        exact ⟨_, by simp only [step, hrun, bind_ok]; rfl⟩
  | remove_head sp bufsize =>
    cases hb
    cases as with
    | nil => exact ⟨_, by simp only [step, q_remove_head_empty hq, bind_ok]; rfl⟩
    | cons a as =>
      obtain ⟨q', -, hrun⟩ := q_remove_head_spec hq none bufsize
      exact ⟨_, by simp only [step, hrun, copy_out, bind_ok]; rfl⟩

theorem run_total : ∀ (ops : List Op) {m : Heap} {q : queue_t} {as : List Nat},
    IsQueue m q as → MallocOk m (some q) ops → (∀ op ∈ ops, op.no_buffer) →
    as.length + ops.length ≤ 2147483647 →
    ∃ r, run m (some q) ops = .ok r
  | [], m, q, _, _, _, _, _ => ⟨(m, some q), rfl⟩
  | op :: ops, m, q, as, hq, hm, hb, hlen => by
    obtain ⟨hm1, hm2⟩ := hm
    simp only [List.length_cons] at hlen
    obtain ⟨r1, hs⟩ := step_total hq op hm1 (hb op (List.mem_cons_self _ _)) (by omega)
    obtain ⟨q1, as1, hq1, hI, hle⟩ := step_invariant hq op hm1 hs
    rw [hs] at hm2
    simp only [] at hm2
    rw [hq1] at hm2
    obtain ⟨r, hr⟩ := run_total ops hI hm2 (fun o ho => hb o (List.mem_cons_of_mem _ ho))
      (by omega)
    refine ⟨r, ?_⟩
    simp only [run, hs, bind_ok]
    rw [hq1]; exact hr

theorem size_pred_of_pos {cap : Nat} (h1 : 0 < cap) (h2 : cap < 2 ^ 64) :
    size_pred cap = cap - 1 := by
  simp only [size_pred]
  norm_num at h2 ⊢
  omega

theorem c_string_append_zero (v r : List Nat) (hz : 0 ∉ v) : c_string (v ++ 0 :: r) = v := by
  induction v with
  | nil => simp [c_string]
  | cons a v ih =>
    have ha : a ≠ 0 := fun e => hz (by simp [e])
    have hz' : 0 ∉ v := fun h => hz (List.mem_cons_of_mem _ h)
    have := ih hz'
    simp only [c_string] at this ⊢
    rw [List.cons_append, List.takeWhile_cons, this]
    simp [ha]

/-- The copy into the caller's buffer is defined, and leaves the string in the buffer,
when the capacity is the length of the string plus one or plus two. -/
theorem copy_out_fit (buf v : List Nat) (cap : Nat)
    (hcap : cap = v.length + 1 ∨ cap = v.length + 2) (hbuf : cap ≤ buf.length)
    (hlt : cap < 2 ^ 64) (hz : 0 ∉ v) :
    ∃ buf', copy_out (some buf) (some v) cap = .ok (some buf') ∧ c_string buf' = v := by
  have hsp : size_pred cap = cap - 1 := size_pred_of_pos (by omega) hlt
  rcases hcap with rfl | rfl
  · obtain ⟨x, r, hr⟩ : ∃ x r, buf.drop v.length = x :: r := by
      cases h : buf.drop v.length with
      | nil =>
        have := List.drop_eq_nil_iff.1 h
        omega
      | cons x r => exact ⟨x, r, rfl⟩
    refine ⟨v ++ 0 :: r, ?_, c_string_append_zero v r hz⟩
    have hn : v.length + 1 - 1 = v.length := by omega
    have hcond : v.length ≤ (value_bytes (some v)).length ∧ v.length ≤ buf.length := by
      simp [value_bytes]; omega
    have htake : (value_bytes (some v)).take v.length = v := by
      simp [value_bytes]
    have hlen : v.length < (v ++ x :: r).length := by simp
    have hset : (v ++ x :: r).set v.length 0 = v ++ 0 :: r := by
      rw [List.set_append_right _ _ (le_refl _)]
      simp
    simp only [copy_out, hsp, hn, memcpy, if_pos hcond, htake, hr, bind_ok, store_byte,
      if_pos hlen, hset]
  · obtain ⟨x, r, hr⟩ : ∃ x r, buf.drop (v.length + 1) = x :: r := by
      cases h : buf.drop (v.length + 1) with
      | nil =>
        have := List.drop_eq_nil_iff.1 h
        omega
      | cons x r => exact ⟨x, r, rfl⟩
    refine ⟨v ++ 0 :: 0 :: r, ?_, c_string_append_zero v _ hz⟩
    have hn : v.length + 2 - 1 = v.length + 1 := by omega
    have hcond : v.length + 1 ≤ (value_bytes (some v)).length ∧ v.length + 1 ≤ buf.length := by
      simp [value_bytes]; omega
    have htake : (value_bytes (some v)).take (v.length + 1) = v ++ [0] := by
      simp [value_bytes]
    have hlen : v.length + 1 < (v ++ [0] ++ x :: r).length := by simp
    have hset : (v ++ [0] ++ x :: r).set (v.length + 1) 0 = v ++ 0 :: 0 :: r := by
      rw [List.set_append_right _ _ (by simp)]
      simp
    simp only [copy_out, hsp, hn, memcpy, if_pos hcond, htake, hr, bind_ok, store_byte,
      if_pos hlen, hset]

theorem write_write_fresh {m : Heap} {a : Nat} (hf : m a = none) (v : Option list_ele_t) :
    (m.write a v).write a none = m := by
  funext b
  by_cases hb : b = a
  · subst hb; simp [hf]
  · rw [write_other _ _ hb, write_other _ _ hb]

/-- The round trip of a present string: `q_insert_head` followed by `q_remove_head`
with a buffer of capacity the length plus one or plus two gives the heap and the queue
back and leaves the string in the buffer. -/
theorem round_trip_fit {m : Heap} {q : queue_t} {as : List Nat} (hq : IsQueue m q as)
    (v buf : List Nat) {a : Nat} (cap : Nat) (hf : m a = none)
    (hcap : cap = v.length + 1 ∨ cap = v.length + 2) (hbuf : cap ≤ buf.length)
    (hlt : cap < 2 ^ 64) (hz : 0 ∉ v) (hlen : as.length < 2147483647) :
    ∃ m1 q1 buf', q_insert_head m (some q) (some v) (some a) true = .ok (m1, some q1, true) ∧
      q_remove_head m1 (some q1) (some buf) cap = .ok (m, some q, some buf', true) ∧
      c_string buf' = v := by
  obtain ⟨m1, q1, hrun, hq1, hval, hfr⟩ :=
    q_insert_head_spec hq (some v) hf true (fun _ => rfl) hlen
  obtain ⟨q2, hq2, hrem⟩ := q_remove_head_spec hq1 (some buf) cap
  obtain ⟨buf', hcopy, hstr⟩ := copy_out_fit buf v cap hcap hbuf hlt hz
  have hm : m1.write a none = m := by
    funext b
    by_cases hb : b = a
    · subst hb; simp [hf]
    · rw [write_other _ _ hb, hfr b hb]
  rw [hm] at hq2 hrem
  have hqq : q2 = q := isQueue_unique hq2 hq
  rw [hval, hcopy, hqq] at hrem
  exact ⟨m1, q1, buf', hrun, hrem, hstr⟩

/-- The round trip of any value, absent included, when no buffer is passed:
`q_insert_head` followed by `q_remove_head` gives the heap and the queue back. -/
theorem round_trip_no_buffer {m : Heap} {q : queue_t} {as : List Nat} (hq : IsQueue m q as)
    (s : Option (List Nat)) {a : Nat} (bufsize : Nat) (hf : m a = none)
    (hlen : as.length < 2147483647) :
    ∃ m1 q1, q_insert_head m (some q) s (some a) true = .ok (m1, some q1, true) ∧
      q_remove_head m1 (some q1) none bufsize = .ok (m, some q, none, true) := by
  obtain ⟨m1, q1, hrun, hq1, hval, hfr⟩ := q_insert_head_spec hq s hf true (fun _ => rfl) hlen
  obtain ⟨q2, hq2, hrem⟩ := q_remove_head_spec hq1 none bufsize
  have hm : m1.write a none = m := by
    funext b
    by_cases hb : b = a
    · subst hb; simp [hf]
    · rw [write_other _ _ hb, hfr b hb]
  rw [hm] at hq2 hrem
  have hqq : q2 = q := isQueue_unique hq2 hq
  rw [hqq] at hrem
  exact ⟨m1, q1, hrun, hrem⟩

/-! ## The claims -/

/-- C1 (evaluation at the failing input): after `q_insert_tail` of "banana", "apple",
"cherry" and `q_sort`, three `q_remove_head` calls return true and yield "cherry",
"banana", "apple": the order is descending, not the ascending order the claim and the
comment of `q_sort` state. -/
theorem sort_example_is_descending :
    sort_example =
      .ok [(true, bytes "cherry"), (true, bytes "banana"), (true, bytes "apple")] := by
  decide

/-- C2: on a well-formed queue of present strings `q_sort` returns, and the chain it
leaves visits the same nodes as before, each once (a permutation), every node holding
the value it held; so the values form the same multiset and the count is unchanged. -/
theorem sort_is_permutation (m : Heap) (q : queue_t) (as : List Nat) (fuel : Nat)
    (hq : IsQueue m q as) (hp : AllPresent m as) (hf : as.length + 1 < fuel) :
    ∃ m' q' bs, q_sort fuel m (some q) = .ok (m', some q') ∧ IsQueue m' q' bs ∧
      bs.Perm as ∧ (node_values m' bs).Perm (node_values m as) ∧
      (∀ a, value_at m' a = value_at m a) ∧ bs.length = as.length ∧ q'.size = q.size := by
  rcases q_sort_spec hq fuel hf with ⟨-, hnp⟩ | ⟨m', q', hrun, hq', hsv, -, -⟩
  · exact absurd hp hnp
  · have hperm : (as.mergeSort (ge_at m)).Perm as := List.mergeSort_perm as _
    refine ⟨m', q', _, hrun, hq', hperm, ?_, hsv.value_at, hperm.length_eq, ?_⟩
    · rw [hsv.node_values]
      exact hperm.map _
    · exact Subtype.ext (by rw [hq'.size_eq, hq.size_eq, hperm.length_eq])

/-- Witness of C2 on the three-node queue "banana", "apple", "cherry". -/
theorem sort_is_permutation_witness :
    IsQueue ex_heap ex_queue [10, 11, 12] ∧ AllPresent ex_heap [10, 11, 12] ∧
    [10, 11, 12].length + 1 < 5 ∧
    ∃ m' q' bs, q_sort 5 ex_heap (some ex_queue) = .ok (m', some q') ∧ IsQueue m' q' bs ∧
      bs.Perm [10, 11, 12] ∧ (node_values m' bs).Perm (node_values ex_heap [10, 11, 12]) ∧
      (∀ a, value_at m' a = value_at ex_heap a) ∧ bs.length = [10, 11, 12].length ∧
      q'.size = ex_queue.size :=
  ⟨ex_isQueue, ex_allPresent, by decide,
    sort_is_permutation ex_heap ex_queue [10, 11, 12] 5 ex_isQueue ex_allPresent (by decide)⟩

/-- C3: on a well-formed queue `q_reverse` returns, and the chain it leaves visits the
nodes in the reverse order, with the values reversed accordingly and the count
unchanged; the old first node is the new last node and its next link is `NULL`; a
queue of fewer than two elements and an absent queue are left unchanged. -/
theorem reverse_reverses (m : Heap) (q : queue_t) (as : List Nat) (fuel : Nat)
    (hq : IsQueue m q as) (hf : as.length ≤ fuel) :
    (∃ m' q', q_reverse fuel m (some q) = .ok (m', some q') ∧ IsQueue m' q' as.reverse ∧
      node_values m' as.reverse = (node_values m as).reverse ∧ q'.size = q.size ∧
      q'.tail = q.head ∧ (∀ t, q'.tail = some t → get_next m' (some t) = .ok none) ∧
      (as.length < 2 → m' = m ∧ q' = q)) ∧
    q_reverse fuel m none = .ok (m, none) := by
  obtain ⟨m', q', hrun, hq', hsv, -, hsmall⟩ := q_reverse_spec hq fuel hf
  refine ⟨⟨m', q', hrun, hq', ?_, ?_, ?_, hq'.facts.2.2.2, hsmall⟩, rfl⟩
  · rw [hsv.node_values, node_values_reverse]
  · exact Subtype.ext (by rw [hq'.size_eq, hq.size_eq, List.length_reverse])
  · rw [hq'.tail_eq, hq.head_eq, List.getLast?_reverse, hd_none_eq_head?]

/-- Witness of C3 on the three-node queue "banana", "apple", "cherry". -/
theorem reverse_reverses_witness :
    IsQueue ex_heap ex_queue [10, 11, 12] ∧ [10, 11, 12].length ≤ 3 ∧
    ((∃ m' q', q_reverse 3 ex_heap (some ex_queue) = .ok (m', some q') ∧
      IsQueue m' q' [10, 11, 12].reverse ∧
      node_values m' [10, 11, 12].reverse = (node_values ex_heap [10, 11, 12]).reverse ∧
      q'.size = ex_queue.size ∧ q'.tail = ex_queue.head ∧
      (∀ t, q'.tail = some t → get_next m' (some t) = .ok none) ∧
      ([10, 11, 12].length < 2 → m' = ex_heap ∧ q' = ex_queue)) ∧
    q_reverse 3 ex_heap none = .ok (ex_heap, none)) :=
  ⟨ex_isQueue, by decide, reverse_reverses ex_heap ex_queue [10, 11, 12] 3 ex_isQueue (by decide)⟩

/-- C4: on a well-formed queue, `q_reverse` applied twice returns the heap and the
queue record it started from: the same nodes in the same order with the same values
and links, the same count, first and last reference. -/
theorem reverse_twice_is_identity (m : Heap) (q : queue_t) (as : List Nat) (fuel : Nat)
    (hq : IsQueue m q as) (hf : as.length ≤ fuel) :
    ∃ m1 q1, q_reverse fuel m (some q) = .ok (m1, some q1) ∧
      q_reverse fuel m1 (some q1) = .ok (m, some q) := by
  obtain ⟨m1, q1, hrun1, hq1, hsv1, hfr1, -⟩ := q_reverse_spec hq fuel hf
  obtain ⟨m2, q2, hrun2, hq2, hsv2, hfr2, -⟩ :=
    q_reverse_spec hq1 fuel (by rw [List.length_reverse]; exact hf)
  rw [List.reverse_reverse] at hq2
  have hm : m2 = m := heap_eq_of_lseg hq.links hq2.links (hsv1.trans hsv2) (fun b hb => by
    rw [hfr2 b (by simpa using hb), hfr1 b hb])
  have hqq : q2 = q := isQueue_unique hq2 hq
  rw [hm, hqq] at hrun2
  exact ⟨m1, q1, hrun1, hrun2⟩

/-- Witness of C4 on the three-node queue "banana", "apple", "cherry". -/
theorem reverse_twice_is_identity_witness :
    IsQueue ex_heap ex_queue [10, 11, 12] ∧ [10, 11, 12].length ≤ 3 ∧
    ∃ m1 q1, q_reverse 3 ex_heap (some ex_queue) = .ok (m1, some q1) ∧
      q_reverse 3 m1 (some q1) = .ok (ex_heap, some ex_queue) :=
  ⟨ex_isQueue, by decide,
    reverse_twice_is_identity ex_heap ex_queue [10, 11, 12] 3 ex_isQueue (by decide)⟩

/-- C5: on a well-formed queue of present strings `q_sort` returns, and `q_sort`
applied to its result returns that result unchanged: the same heap and queue record,
hence the same first-to-last element sequence. -/
theorem sort_idempotent (m : Heap) (q : queue_t) (as : List Nat) (fuel : Nat)
    (hq : IsQueue m q as) (hp : AllPresent m as) (hf : as.length + 1 < fuel) :
    ∃ m1 q1 bs, q_sort fuel m (some q) = .ok (m1, some q1) ∧ IsQueue m1 q1 bs ∧
      q_sort fuel m1 (some q1) = .ok (m1, some q1) := by
  rcases q_sort_spec hq fuel hf with ⟨-, hnp⟩ | ⟨m1, q1, hrun1, hq1, hsv1, -, -⟩
  · exact absurd hp hnp
  have hperm : (as.mergeSort (ge_at m)).Perm as := List.mergeSort_perm as _
  have hsorted : (as.mergeSort (ge_at m)).Pairwise (fun a b => ge_at m a b = true) :=
    List.sorted_mergeSort (ge_at_trans m) (ge_at_total m) as
  rcases q_sort_spec hq1 fuel (by rw [List.length_mergeSort]; exact hf) with
    ⟨hub, -⟩ | ⟨m2, q2, hrun2, hq2, hsv2, hfr2, -⟩
  · exfalso
    rcases q_sort_spec hq1 fuel (by rw [List.length_mergeSort]; exact hf) with
      ⟨-, hnp⟩ | ⟨m2, q2, hrun2, -⟩
    · apply hnp
      rw [hsv1.allPresent]
      exact fun a ha => hp a (hperm.mem_iff.1 ha)
    · rw [hub] at hrun2; cases hrun2
  rw [hsv1.ge_at, List.mergeSort_of_sorted hsorted] at hq2
  have hm : m2 = m1 := heap_eq_of_lseg hq1.links hq2.links hsv2 hfr2
  have hqq : q2 = q1 := isQueue_unique hq2 hq1
  rw [hm, hqq] at hrun2
  exact ⟨m1, q1, _, hrun1, hq1, hrun2⟩

/-- Witness of C5 on the three-node queue "banana", "apple", "cherry". -/
theorem sort_idempotent_witness :
    IsQueue ex_heap ex_queue [10, 11, 12] ∧ AllPresent ex_heap [10, 11, 12] ∧
    [10, 11, 12].length + 1 < 5 ∧
    ∃ m1 q1 bs, q_sort 5 ex_heap (some ex_queue) = .ok (m1, some q1) ∧ IsQueue m1 q1 bs ∧
      q_sort 5 m1 (some q1) = .ok (m1, some q1) :=
  ⟨ex_isQueue, ex_allPresent, by decide,
    sort_idempotent ex_heap ex_queue [10, 11, 12] 5 ex_isQueue ex_allPresent (by decide)⟩

theorem ex_ops_mallocOk : MallocOk Heap.empty (q_new true) ex_ops :=
  ⟨rfl, rfl, trivial, trivial, trivial⟩

theorem ex_ops_no_buffer : ∀ op ∈ ex_ops, op.no_buffer := by
  intro op hop
  simp only [ex_ops, List.mem_cons, List.mem_singleton, List.not_mem_nil, or_false] at hop
  rcases hop with rfl | rfl | rfl | rfl <;> trivial

theorem empty_isQueue (m : Heap) :
    IsQueue m { head := none, tail := none, size := ⟨0, by decide⟩ } [] :=
  isQueue_nil_iff.2 rfl

theorem run_append : ∀ (xs ys : List Op) (m : Heap) (q : Option queue_t),
    run m q (xs ++ ys) = (run m q xs).bind fun r => run r.1 r.2 ys
  | [], _, _, _ => rfl
  | op :: xs, ys, m, q => by
    simp only [List.cons_append, run, bind_assoc]
    congr 1
    funext r
    exact run_append xs ys r.1 r.2

theorem mallocOk_append : ∀ (xs ys : List Op) (m : Heap) (q : Option queue_t),
    MallocOk m q xs → (∀ r, run m q xs = .ok r → MallocOk r.1 r.2 ys) →
    MallocOk m q (xs ++ ys)
  | [], ys, m, q, _, h => h (m, q) rfl
  | op :: xs, ys, m, q, hx, h => by
    obtain ⟨h1, h2⟩ := hx
    refine ⟨h1, ?_⟩
    cases hs : step m q op with
    | ok r1 =>
      rw [hs] at h2
      simp only [] at h2 ⊢
      refine mallocOk_append xs ys r1.1 r1.2 h2 (fun r hr => h r ?_)
      simp only [run, hs, bind_ok]
      exact hr
    | ub => trivial
    | fuel => trivial

theorem head_inserts_succ (n : Nat) :
    head_inserts (n + 1) = head_inserts n ++ [Op.insert_head none (some n) true] := by
  simp only [head_inserts, List.range_succ, List.map_append, List.map_cons, List.map_nil]

/-- As long as the count fits an `int`, `n` insertions into a new queue give a
well-formed queue of `n` nodes. -/
theorem head_inserts_run : ∀ (n : Nat), n ≤ 2147483647 →
    ∃ m q as, run Heap.empty (q_new true) (head_inserts n) = .ok (m, some q) ∧
      IsQueue m q as ∧ as.length = n ∧ (∀ a, n ≤ a → m a = none) ∧
      MallocOk Heap.empty (q_new true) (head_inserts n)
  | 0, _ => ⟨Heap.empty, _, [], rfl, empty_isQueue _, rfl, fun _ _ => rfl, trivial⟩
  | n + 1, hn => by
    obtain ⟨m, q, as, hrun, hq, hlen, hfree, hmal⟩ := head_inserts_run n (by omega)
    obtain ⟨m', q', hins, hq', -, hfr⟩ :=
      q_insert_head_spec hq none (hfree n (le_refl n)) true (fun h => by cases h)
        (by rw [hlen]; omega)
    refine ⟨m', q', n :: as, ?_, hq', by simp [hlen], ?_, ?_⟩
    · rw [head_inserts_succ, run_append, hrun]
      simp only [bind_ok, run, step, hins]
    · intro a ha
      rw [hfr a (by omega)]
      exact hfree a (by omega)
    · rw [head_inserts_succ]
      refine mallocOk_append _ _ _ _ hmal (fun r hr => ?_)
      rw [hrun] at hr
      cases hr
      refine ⟨hfree n (le_refl n), ?_⟩
      simp only [step, hins, bind_ok]
      trivial

/-- One insertion more than the `int` count can hold: the last call has undefined
behaviour. -/
theorem head_inserts_overflow (n : Nat) (hn : n = 2147483647) :
    MallocOk Heap.empty (q_new true) (head_inserts (n + 1)) ∧
    (∀ op ∈ head_inserts (n + 1), op.no_buffer) ∧
    run Heap.empty (q_new true) (head_inserts (n + 1)) = .ub := by
  obtain ⟨m, q, as, hrun, hq, hlen, hfree, hmal⟩ := head_inserts_run n (by omega)
  have hov : q_insert_head m (some q) none (some n) true = .ub :=
    q_insert_head_overflow hq none n true (fun h => by cases h.1) (by rw [hlen]; omega)
  refine ⟨?_, ?_, ?_⟩
  · rw [head_inserts_succ]
    refine mallocOk_append _ _ _ _ hmal (fun r hr => ?_)
    rw [hrun] at hr
    cases hr
    refine ⟨hfree n (le_refl _), ?_⟩
    simp only [step, hov, bind_ub]
  · intro op hop
    simp only [head_inserts, List.mem_map] at hop
    obtain ⟨i, -, rfl⟩ := hop
    trivial
  · rw [head_inserts_succ, run_append, hrun]
    simp only [bind_ok, run, step, hov, bind_ub]

theorem head_inserts_refutes (n : Nat) (hn : n = 2147483647) :
    MallocOk Heap.empty (q_new true) (head_inserts (n + 1)) ∧
    (∀ op ∈ head_inserts (n + 1), op.no_buffer) ∧
    run Heap.empty (q_new true) (head_inserts (n + 1)) = .ub ∧
    ¬ (∃ m q qq as k, run Heap.empty (q_new true) (head_inserts (n + 1)) = .ok (m, q) ∧
        q = some qq ∧ Chain m qq.head as ∧ q_size q = .ok k ∧ k.val = (as.length : Int)) := by
  obtain ⟨h1, h2, h3⟩ := head_inserts_overflow n hn
  refine ⟨h1, h2, h3, ?_⟩
  rintro ⟨m, q, qq, as, k, hok, -⟩
  rw [h3] at hok
  exact Res.noConfusion hok

/-- C6 (counterexample): the sequence of `INT_MAX + 1` successful `q_insert_head` calls
on a new queue, every `malloc` returning an unallocated node and no call passing a
buffer, has undefined behaviour: the last call increments an `int` count that holds
`INT_MAX`.  So it is not the case that after this sequence `q_size` returns the number
of nodes on the chain. -/
theorem size_overflow_counterexample :
    MallocOk Heap.empty (q_new true) overflow_ops ∧ (∀ op ∈ overflow_ops, op.no_buffer) ∧
    run Heap.empty (q_new true) overflow_ops = .ub ∧
    ¬ (∃ m q qq as n, run Heap.empty (q_new true) overflow_ops = .ok (m, q) ∧ q = some qq ∧
        Chain m qq.head as ∧ q_size q = .ok n ∧ n.val = (as.length : Int)) :=
  head_inserts_refutes 2147483647 rfl

/-- C6 (amended): starting from a newly created queue, after every sequence of
`q_insert_head`, `q_insert_tail` and `q_remove_head` calls, succeeding or failing, that
runs without undefined behaviour, the value `q_size` returns is the number of nodes on
the chain from `head` to `NULL`, at most `INT_MAX`; and every sequence of at most
`INT_MAX` calls that pass no buffer runs without undefined behaviour. -/
theorem size_equals_walk_count (m0 : Heap) (ops : List Op)
    (hm : MallocOk m0 (q_new true) ops) :
    (∀ m q, run m0 (q_new true) ops = .ok (m, q) →
      ∃ qq as n, q = some qq ∧ Chain m qq.head as ∧ q_size q = .ok n ∧
        n.val = (as.length : Int) ∧ as.length ≤ 2147483647) ∧
    ((∀ op ∈ ops, op.no_buffer) → ops.length ≤ 2147483647 →
      ∃ m q, run m0 (q_new true) ops = .ok (m, q)) := by
  constructor
  · intro m q hr
    obtain ⟨qq, as, hq, hI⟩ := run_invariant ops (empty_isQueue m0) hm hr
    simp only [] at hq hI
    subst hq
    exact ⟨qq, as, qq.size, rfl, hI.chain, rfl, hI.size_eq, hI.length_le⟩
  · intro hb hlen
    obtain ⟨r, hr⟩ := run_total ops (empty_isQueue m0) hm hb (by simpa using hlen)
    exact ⟨r.1, r.2, hr⟩

/-- Witness of C6 on a sequence of four calls, one of them failing. -/
theorem size_equals_walk_count_witness :
    MallocOk Heap.empty (q_new true) ex_ops ∧
    ((∀ m q, run Heap.empty (q_new true) ex_ops = .ok (m, q) →
      ∃ qq as n, q = some qq ∧ Chain m qq.head as ∧ q_size q = .ok n ∧
        n.val = (as.length : Int) ∧ as.length ≤ 2147483647) ∧
    ((∀ op ∈ ex_ops, op.no_buffer) → ex_ops.length ≤ 2147483647 →
      ∃ m q, run Heap.empty (q_new true) ex_ops = .ok (m, q))) :=
  ⟨ex_ops_mallocOk, size_equals_walk_count Heap.empty ex_ops ex_ops_mallocOk⟩

/-- C7: a well-formed queue has `size = 0` iff `head` is `NULL` iff `tail` is `NULL`,
`head = tail` when `size = 1`, and `tail` designating the last node of the chain, whose
next link is `NULL`; a new queue is well formed, and `q_insert_head`, `q_insert_tail`,
`q_remove_head`, `q_reverse` and `q_sort` return a well-formed queue whenever they
return (which the insertions do on a queue of fewer than `INT_MAX` nodes, and the
removal without buffer, the reversal and the sort of present strings always do); after
`q_sort`, `tail` is the last node of the sorted chain. -/
theorem invariant_preserved (m : Heap) (q : queue_t) (as : List Nat) (hq : IsQueue m q as) :
    ((q.size.val = 0 ↔ q.head = none) ∧ (q.head = none ↔ q.tail = none) ∧
      (q.size.val = 1 → q.head = q.tail) ∧
      (∀ t, q.tail = some t → get_next m (some t) = .ok none)) ∧
    (∃ q0, q_new true = some q0 ∧ IsQueue m q0 []) ∧
    (∀ s newh valloc, fresh m newh →
      (∀ r, q_insert_head m (some q) s newh valloc = .ok r →
        ∃ q' as', r.2.1 = some q' ∧ IsQueue r.1 q' as') ∧
      (as.length < 2147483647 →
        ∃ m' q' b as', q_insert_head m (some q) s newh valloc = .ok (m', some q', b) ∧
          IsQueue m' q' as')) ∧
    (∀ s newt valloc, fresh m newt →
      (∀ r, q_insert_tail m (some q) s newt valloc = .ok r →
        ∃ q' as', r.2.1 = some q' ∧ IsQueue r.1 q' as') ∧
      (as.length < 2147483647 →
        ∃ m' q' b as', q_insert_tail m (some q) s newt valloc = .ok (m', some q', b) ∧
          IsQueue m' q' as')) ∧
    (∀ sp bufsize r, q_remove_head m (some q) sp bufsize = .ok r →
      ∃ q' as', r.2.1 = some q' ∧ IsQueue r.1 q' as') ∧
    (∀ bufsize, ∃ r, q_remove_head m (some q) none bufsize = .ok r) ∧
    (∀ fuel, as.length ≤ fuel →
      ∃ m' q', q_reverse fuel m (some q) = .ok (m', some q') ∧ IsQueue m' q' as.reverse) ∧
    (∀ fuel, as.length + 1 < fuel →
      (∀ r, q_sort fuel m (some q) = .ok r →
        ∃ q' bs, r.2 = some q' ∧ IsQueue r.1 q' bs ∧ bs.Perm as ∧ q'.tail = bs.getLast?) ∧
      (AllPresent m as → ∃ r, q_sort fuel m (some q) = .ok r)) := by
  refine ⟨hq.facts, q_new_isQueue m, ?_, ?_, ?_, ?_, ?_, ?_⟩
  · intro s newh valloc hfr
    refine ⟨fun r hr => ?_, fun hlen => ?_⟩
    · have hs : step m (some q) (.insert_head s newh valloc) = .ok (r.1, r.2.1) := by
        simp only [step, hr, bind_ok]
      obtain ⟨q', as', h1, h2, -⟩ := step_invariant hq (.insert_head s newh valloc) hfr hs
      exact ⟨q', as', h1, h2⟩
    · cases newh with
      | none => exact ⟨m, q, false, as, rfl, hq⟩
      | some a =>
        by_cases hv : s.isSome ∧ valloc = false
        · exact ⟨m, q, false, as, by simp [q_insert_head, hv], hq⟩
        · obtain ⟨m', q', hrun, hq', -⟩ := q_insert_head_spec hq s hfr valloc (fun h => by
            by_contra hc
            exact hv ⟨h, by simpa using hc⟩) hlen
          exact ⟨m', q', true, _, hrun, hq'⟩
  · intro s newt valloc hfr
    refine ⟨fun r hr => ?_, fun hlen => ?_⟩
    · have hs : step m (some q) (.insert_tail s newt valloc) = .ok (r.1, r.2.1) := by
        simp only [step, hr, bind_ok]
      obtain ⟨q', as', h1, h2, -⟩ := step_invariant hq (.insert_tail s newt valloc) hfr hs
      exact ⟨q', as', h1, h2⟩
    · cases newt with
      | none => exact ⟨m, q, false, as, rfl, hq⟩
      | some a =>
        by_cases hv : s.isSome ∧ valloc = false
        · exact ⟨m, q, false, as, by simp [q_insert_tail, hv], hq⟩
        · obtain ⟨m', q', hrun, hq', -⟩ := q_insert_tail_spec hq s hfr valloc (fun h => by
            by_contra hc
            exact hv ⟨h, by simpa using hc⟩) hlen
          exact ⟨m', q', true, _, hrun, hq'⟩
  · intro sp bufsize r hr
    have hs : step m (some q) (.remove_head sp bufsize) = .ok (r.1, r.2.1) := by
      simp only [step, hr, bind_ok]
    obtain ⟨q', as', h1, h2, -⟩ := step_invariant hq (.remove_head sp bufsize) trivial hs
    exact ⟨q', as', h1, h2⟩
  · intro bufsize
    cases as with
    | nil => exact ⟨_, q_remove_head_empty hq none bufsize⟩
    | cons a as =>
      obtain ⟨q', -, hrun⟩ := q_remove_head_spec hq none bufsize
      exact ⟨_, by rw [hrun]; rfl⟩
  · intro fuel hf
    obtain ⟨m', q', hrun, hq', -⟩ := q_reverse_spec hq fuel hf
    exact ⟨m', q', hrun, hq'⟩
  · intro fuel hf
    rcases q_sort_spec hq fuel hf with ⟨hub, hnp⟩ | ⟨m', q', hrun, hq', -⟩
    · exact ⟨fun r hr => by rw [hub] at hr; exact Res.noConfusion hr,
        fun hp => absurd hp hnp⟩
    · refine ⟨fun r hr => ?_, fun _ => ⟨_, hrun⟩⟩
      rw [hrun] at hr
      cases hr
      exact ⟨q', _, rfl, hq', List.mergeSort_perm as _, hq'.tail_eq⟩

/-- Witness of C7 on the three-node queue "banana", "apple", "cherry". -/
theorem invariant_preserved_witness :
    IsQueue ex_heap ex_queue [10, 11, 12] ∧
    (((ex_queue.size.val = 0 ↔ ex_queue.head = none) ∧ (ex_queue.head = none ↔ ex_queue.tail = none) ∧
      (ex_queue.size.val = 1 → ex_queue.head = ex_queue.tail) ∧
      (∀ t, ex_queue.tail = some t → get_next ex_heap (some t) = .ok none)) ∧
    (∃ q0, q_new true = some q0 ∧ IsQueue ex_heap q0 []) ∧
    (∀ s newh valloc, fresh ex_heap newh →
      (∀ r, q_insert_head ex_heap (some ex_queue) s newh valloc = .ok r →
        ∃ q' as', r.2.1 = some q' ∧ IsQueue r.1 q' as') ∧
      ([10, 11, 12].length < 2147483647 →
        ∃ m' q' b as', q_insert_head ex_heap (some ex_queue) s newh valloc = .ok (m', some q', b) ∧
          IsQueue m' q' as')) ∧
    (∀ s newt valloc, fresh ex_heap newt →
      (∀ r, q_insert_tail ex_heap (some ex_queue) s newt valloc = .ok r →
        ∃ q' as', r.2.1 = some q' ∧ IsQueue r.1 q' as') ∧
      ([10, 11, 12].length < 2147483647 →
        ∃ m' q' b as', q_insert_tail ex_heap (some ex_queue) s newt valloc = .ok (m', some q', b) ∧
          IsQueue m' q' as')) ∧
    (∀ sp bufsize r, q_remove_head ex_heap (some ex_queue) sp bufsize = .ok r →
      ∃ q' as', r.2.1 = some q' ∧ IsQueue r.1 q' as') ∧
    (∀ bufsize, ∃ r, q_remove_head ex_heap (some ex_queue) none bufsize = .ok r) ∧
    (∀ fuel, [10, 11, 12].length ≤ fuel →
      ∃ m' q', q_reverse fuel ex_heap (some ex_queue) = .ok (m', some q') ∧ IsQueue m' q' [10, 11, 12].reverse) ∧
    (∀ fuel, [10, 11, 12].length + 1 < fuel →
      (∀ r, q_sort fuel ex_heap (some ex_queue) = .ok r →
        ∃ q' bs, r.2 = some q' ∧ IsQueue r.1 q' bs ∧ bs.Perm [10, 11, 12] ∧ q'.tail = bs.getLast?) ∧
      (AllPresent ex_heap [10, 11, 12] → ∃ r, q_sort fuel ex_heap (some ex_queue) = .ok r))) :=
  ⟨ex_isQueue, invariant_preserved ex_heap ex_queue [10, 11, 12] ex_isQueue⟩

/-- C8 (evaluation at the failing input): `q_insert_head` of the absent value into a
new queue succeeds, and the `q_remove_head` that follows, given an 8-byte buffer, has
undefined behaviour (`memcpy` of 7 bytes from `NULL`); so has the round trip of the
present string "x" with the same buffer (`memcpy` of 7 bytes from a 2-byte object). -/
theorem round_trip_undefined :
    round_trip none 8 = .ub ∧ round_trip (some (bytes "x")) 8 = .ub :=
  ⟨by decide, by decide⟩

/-- C9 (evaluation at the failing input): after `q_insert_tail` of "a", "b", "c" into
a new queue, `q_remove_head` with an 8-byte buffer has undefined behaviour (`memcpy`
of 7 bytes from a 2-byte object); with 2-byte buffers the three calls return true and
yield "a", "b", "c", leaving the queue empty. -/
theorem fifo_example_undefined :
    fifo_example 8 = .ub ∧
    fifo_example 2 = .ok ([true, true, true],
      [(true, bytes "a"), (true, bytes "b"), (true, bytes "c")],
      some { head := none, tail := none, size := ⟨0, by decide⟩ }) :=
  ⟨by decide, by decide⟩

theorem hd_range' (s n : Nat) (h : 0 < n) : hd (List.range' s n) none = some s := by
  obtain ⟨k, rfl⟩ : ∃ k, n = k + 1 := ⟨n - 1, by omega⟩
  rw [List.range'_succ]; rfl

theorem count_heap_lseg (N : Nat) : ∀ (k s : Nat), 1 ≤ s → s + k = N + 1 →
    lseg (count_heap N) (List.range' s k) none
  | 0, _, _, _ => trivial
  | k + 1, s, hs, hk => by
    rw [List.range'_succ]
    refine ⟨⟨{ value := none, next := if s < N then some (s + 1) else none }, ?_, ?_⟩,
      count_heap_lseg N k (s + 1) (by omega) (by omega)⟩
    · have hc : 1 ≤ s ∧ s ≤ N := ⟨hs, by omega⟩
      simp only [count_heap, if_pos hc]
    · show (if s < N then some (s + 1) else none) = hd (List.range' (s + 1) k) none
      by_cases hk0 : k = 0
      · subst hk0
        have : ¬ s < N := by omega
        rw [if_neg this]; rfl
      · have : s < N := by omega
        rw [if_pos this, hd_range' _ _ (by omega)]

/-- The nodes 1 to `n` of `count_heap n` form a well-formed queue. -/
theorem count_isQueue (n : Nat) (q : queue_t) (h1 : 1 ≤ n) (hh : q.head = some 1)
    (ht : q.tail = some n) (hs : q.size.val = (n : Int)) :
    IsQueue (count_heap n) q (List.range' 1 n) := by
  refine ⟨?_, count_heap_lseg n n 1 (le_refl 1) (by omega), ?_, ?_⟩
  · rw [hh, hd_range' _ _ (by omega)]
  · obtain ⟨k, rfl⟩ : ∃ k, n = k + 1 := ⟨n - 1, by omega⟩
    rw [ht, List.range'_concat, getLast?_snoc]
    congr 1
    omega
  · rw [hs, List.length_range']

theorem full_isQueue : IsQueue full_heap full_queue full_nodes :=
  count_isQueue 2147483647 full_queue (by decide) rfl rfl rfl

theorem full_length : full_nodes.length = 2147483647 :=
  List.length_range' _ _ _

/-- C10 (counterexample): on the well-formed queue of `INT_MAX` nodes, `q_insert_head`
of "x" with both allocations succeeding has undefined behaviour: `++q->size` overflows
the `int` count, so the call neither returns true nor adds one to the count. -/
theorem insert_head_overflow_counterexample :
    IsQueue full_heap full_queue full_nodes ∧ full_heap 0 = none ∧
    q_insert_head full_heap (some full_queue) (some (bytes "x")) (some 0) true = .ub ∧
    ¬ (∃ m' q', q_insert_head full_heap (some full_queue) (some (bytes "x")) (some 0) true =
        .ok (m', some q', true)) := by
  have hov : q_insert_head full_heap (some full_queue) (some (bytes "x")) (some 0) true = .ub :=
    q_insert_head_overflow full_isQueue _ 0 true (fun h => by cases h.2)
      (by rw [full_length]; omega)
  refine ⟨full_isQueue, rfl, hov, ?_⟩
  rintro ⟨m', q', h⟩
  rw [hov] at h
  exact Res.noConfusion h

/-- C10 (amended): on a well-formed queue of fewer than `INT_MAX` nodes, a successful
`q_insert_head` returns true, makes the new node, carrying the value, the first node,
followed by the previous nodes in their order with their values, adds one to the
count, and makes the new node the last node too when the queue was empty (the last
node is unchanged otherwise). -/
theorem insert_head_success (m : Heap) (q : queue_t) (as : List Nat) (s : Option (List Nat))
    (a : Nat) (valloc : Bool) (hq : IsQueue m q as) (hf : m a = none)
    (hv : s.isSome → valloc = true) (hlen : as.length < 2147483647) :
    ∃ m' q', q_insert_head m (some q) s (some a) valloc = .ok (m', some q', true) ∧
      IsQueue m' q' (a :: as) ∧ node_values m' (a :: as) = s :: node_values m as ∧
      q'.head = some a ∧ q'.size.val = q.size.val + 1 ∧ q_size (some q') = .ok q'.size ∧
      (as = [] → q'.tail = some a) ∧ (as ≠ [] → q'.tail = q.tail) := by
  obtain ⟨m', q', hrun, hq', hval, hfr⟩ := q_insert_head_spec hq s hf valloc hv hlen
  have hna : a ∉ as := not_mem_of_fresh hq.links hf
  have hsz : q'.size.val = q.size.val + 1 := by
    rw [hq'.size_eq, hq.size_eq]; simp
  refine ⟨m', q', hrun, hq', ?_, hq'.head_eq, hsz, rfl, ?_, ?_⟩
  · simp only [node_values, List.map_cons, hval, List.cons.injEq, true_and]
    refine List.map_congr_left (fun b hb => ?_)
    have hba : b ≠ a := fun e => hna (e ▸ hb)
    simp [value_at, hfr b hba]
  · rintro rfl
    rw [hq'.tail_eq]; rfl
  · intro hne
    rw [hq'.tail_eq, hq.tail_eq]
    cases as with
    | nil => exact absurd rfl hne
    | cons b bs => rw [List.getLast?_cons_cons]

/-- Witness of C10: `q_insert_head` of "x" into the empty queue. -/
theorem insert_head_success_witness :
    IsQueue Heap.empty { head := none, tail := none, size := ⟨0, by decide⟩ } [] ∧
    Heap.empty 1 = none ∧ ((some (bytes "x")).isSome → true = true) ∧
    ([] : List Nat).length < 2147483647 ∧
    ∃ m' q', q_insert_head Heap.empty
        (some { head := none, tail := none, size := ⟨0, by decide⟩ })
        (some (bytes "x")) (some 1) true = .ok (m', some q', true) ∧
      IsQueue m' q' (1 :: []) ∧
      node_values m' (1 :: []) = some (bytes "x") :: node_values Heap.empty [] ∧
      q'.head = some 1 ∧
      q'.size.val = ({ head := none, tail := none, size := ⟨0, by decide⟩ } : queue_t).size.val + 1 ∧
      q_size (some q') = .ok q'.size ∧
      (([] : List Nat) = [] → q'.tail = some 1) ∧
      (([] : List Nat) ≠ [] → q'.tail = (none : Option Nat)) :=
  ⟨empty_isQueue _, rfl, fun _ => rfl, by decide,
    insert_head_success Heap.empty { head := none, tail := none, size := ⟨0, by decide⟩ } []
      (some (bytes "x")) 1 true (empty_isQueue _) rfl (fun _ => rfl) (by decide)⟩

theorem size_pred_zero : size_pred 0 = 2 ^ 64 - 1 := by
  simp [size_pred]

/-- The copy into the caller's buffer when the capacity, at least 1, does not exceed
the length of the string plus one: the first `cap - 1` bytes of the string, then the
terminator at index `cap - 1`. -/
theorem copy_out_trunc (buf v : List Nat) (cap : Nat) (h1 : 1 ≤ cap)
    (hcap : cap ≤ v.length + 1) (hbuf : cap ≤ buf.length) (hlt : cap < 2 ^ 64) :
    copy_out (some buf) (some v) cap =
      .ok (some (v.take (cap - 1) ++ 0 :: buf.drop cap)) := by
  have hsp : size_pred cap = cap - 1 := size_pred_of_pos (by omega) hlt
  obtain ⟨n, rfl⟩ : ∃ n, cap = n + 1 := ⟨cap - 1, by omega⟩
  simp only [Nat.add_sub_cancel] at hsp ⊢
  obtain ⟨x, r, hr⟩ : ∃ x r, buf.drop n = x :: r := by
    cases h : buf.drop n with
    | nil =>
      have := List.drop_eq_nil_iff.1 h
      omega
    | cons x r => exact ⟨x, r, rfl⟩
  have hr' : buf.drop (n + 1) = r := by
    have : buf.drop (n + 1) = (buf.drop n).drop 1 := by rw [List.drop_drop]
    rw [this, hr]; rfl
  have hcond : n ≤ (value_bytes (some v)).length ∧ n ≤ buf.length := by
    simp [value_bytes]; omega
  have htake : (value_bytes (some v)).take n = v.take n := by
    simp only [value_bytes]
    rw [List.take_append_of_le_length (by omega)]
  have hlen1 : (v.take n).length = n := by
    rw [List.length_take]; omega
  have hlen : n < (v.take n ++ x :: r).length := by
    rw [List.length_append, hlen1]; simp
  have hset : (v.take n ++ x :: r).set n 0 = v.take n ++ 0 :: r := by
    rw [List.set_append_right _ _ (by rw [hlen1])]
    simp [hlen1]
  simp only [copy_out, hsp, memcpy, if_pos hcond, htake, hr, hr', bind_ok, store_byte,
    if_pos hlen, hset]

theorem not_mem_take {v : List Nat} (hz : 0 ∉ v) (n : Nat) : 0 ∉ v.take n :=
  fun h => hz (List.mem_of_mem_take h)

/-- On a non-empty queue whose first node holds the string `v`, `q_remove_head` with a
buffer of capacity `cap`, from 1 to the length of `v` plus one, returns true and leaves
in the buffer the first `cap - 1` bytes of `v` followed by the terminator at index
`cap - 1`. -/
theorem q_remove_head_trunc {m : Heap} {q : queue_t} {a : Nat} {as : List Nat}
    (hq : IsQueue m q (a :: as)) (buf v : List Nat) (cap : Nat) (hv : value_at m a = some v)
    (h1 : 1 ≤ cap) (hcap : cap ≤ v.length + 1) (hbuf : cap ≤ buf.length) (hlt : cap < 2 ^ 64)
    (hz : 0 ∉ v) :
    ∃ m' q' buf', q_remove_head m (some q) (some buf) cap = .ok (m', some q', some buf', true) ∧
      IsQueue m' q' as ∧ c_string buf' = v.take (min v.length (cap - 1)) ∧
      buf'.take (cap - 1) = v.take (cap - 1) ∧ buf'.drop (cap - 1) = 0 :: buf.drop cap := by
  obtain ⟨q', hq', hrun⟩ := q_remove_head_spec hq (some buf) cap
  rw [hv, copy_out_trunc buf v cap h1 hcap hbuf hlt] at hrun
  have hlen1 : (v.take (cap - 1)).length = cap - 1 := by
    rw [List.length_take]; omega
  refine ⟨_, q', _, hrun, hq', ?_, ?_, ?_⟩
  · rw [c_string_append_zero _ _ (not_mem_take hz _)]
    congr 1
    omega
  · rw [List.take_append_of_le_length (by rw [hlen1])]
    rw [List.take_of_length_le (by rw [hlen1])]
  · rw [List.drop_append_of_le_length (by rw [hlen1])]
    rw [List.drop_of_length_le (by rw [hlen1])]
    rfl

/-- With capacity 0 the block of `q_remove_head` that fills the buffer has undefined
behaviour: `bufsize - 1` wraps to the largest `size_t`. -/
theorem copy_out_zero (buf : List Nat) (str : Option (List Nat)) (hbuf : buf.length < 2 ^ 64 - 1) :
    copy_out (some buf) str 0 = .ub := by
  have hcond : ¬ (2 ^ 64 - 1 ≤ (value_bytes str).length ∧ 2 ^ 64 - 1 ≤ buf.length) := by
    rintro ⟨-, h⟩
    omega
  simp only [copy_out, size_pred_zero, memcpy, if_neg hcond, bind_ub]

/-- On a non-empty queue `q_remove_head` with a buffer and capacity 0 has undefined
behaviour. -/
theorem q_remove_head_zero {m : Heap} {q : queue_t} {a : Nat} {as : List Nat}
    (hq : IsQueue m q (a :: as)) (buf : List Nat) (hbuf : buf.length < 2 ^ 64 - 1) :
    q_remove_head m (some q) (some buf) 0 = .ub := by
  obtain ⟨q', -, hrun⟩ := q_remove_head_spec hq (some buf) 0
  rw [hrun, copy_out_zero buf _ hbuf]
  rfl

/-- C11 (evaluation at the failing input): the first node holding "banana",
`q_remove_head` with a 9-byte buffer has undefined behaviour (`memcpy` of 8 bytes from
the 7-byte object of the string); with 4 bytes it leaves "ban" and the terminator at
index 3, with 8 bytes "banana" and terminators at indices 6 and 7. -/
theorem remove_example_over_read :
    remove_example (List.replicate 9 255) 9 = .ub ∧
    remove_example (List.replicate 4 255) 4 = .ok (true, some (bytes "ban" ++ [0])) ∧
    remove_example (List.replicate 8 255) 8 = .ok (true, some (bytes "banana" ++ [0, 0])) :=
  ⟨by decide, by decide, by decide⟩

/-- C12 (evaluation at the failing input): `q_remove_head` on a non-empty queue with a
4-byte buffer and capacity 0 has undefined behaviour (`bufsize - 1` wraps, and `memcpy`
is asked for `2 ^ 64 - 1` bytes), where the claim says the buffer is left unchanged. -/
theorem remove_example_capacity_zero :
    remove_example [1, 2, 3, 4] 0 = .ub := by
  decide

theorem q_remove_head_true_of_nonzero {m : Heap} {qq : queue_t} {sp : Option (List Nat)}
    {bufsize : Nat} (hne : qq.size.val ≠ 0)
    {r : Heap × Option queue_t × Option (List Nat) × Bool}
    (hr : q_remove_head m (some qq) sp bufsize = .ok r) : r.2.2.2 = true := by
  simp only [q_remove_head, if_neg hne] at hr
  cases hl : load m qq.head with
  | ok e =>
    rw [hl] at hr
    simp only [bind_ok] at hr
    cases hc : copy_out sp e.value bufsize with
    | ok sp1 =>
      rw [hc] at hr
      simp only [bind_ok] at hr
      cases hi : int_result (qq.size.val - 1) with
      | ok size =>
        rw [hi] at hr
        simp only [bind_ok, Res.ok.injEq] at hr
        rw [← hr]
      | ub => rw [hi] at hr; exact Res.noConfusion hr
      | fuel => rw [hi] at hr; exact Res.noConfusion hr
    | ub => rw [hc] at hr; exact Res.noConfusion hr
    | fuel => rw [hc] at hr; exact Res.noConfusion hr
  | ub => rw [hl] at hr; exact Res.noConfusion hr
  | fuel => rw [hl] at hr; exact Res.noConfusion hr

/-- C13: `q_remove_head` returns false exactly when the queue is absent or empty
(`size` is 0, which on a well-formed queue means no node), and then the heap, the
queue record and the buffer are returned unchanged; on an empty queue `q_size` is
still 0 afterwards. -/
theorem remove_head_false_iff (m : Heap) (q : Option queue_t) (sp : Option (List Nat))
    (bufsize : Nat) :
    ((∃ r, q_remove_head m q sp bufsize = .ok r ∧ r.2.2.2 = false) ↔
      (q = none ∨ ∃ qq, q = some qq ∧ qq.size.val = 0)) ∧
    (∀ r, q_remove_head m q sp bufsize = .ok r → r.2.2.2 = false → r = (m, q, sp, false)) ∧
    (∀ qq as, q = some qq → IsQueue m qq as → (qq.size.val = 0 ↔ as = [])) ∧
    (∀ qq, q = some qq → qq.size.val = 0 →
      ∃ r, q_remove_head m q sp bufsize = .ok r ∧ r.2.2.2 = false ∧
        q_size r.2.1 = .ok ⟨0, by decide⟩) := by
  have hfalse : (q = none ∨ ∃ qq, q = some qq ∧ qq.size.val = 0) →
      q_remove_head m q sp bufsize = .ok (m, q, sp, false) := by
    rintro (rfl | ⟨qq, rfl, hz⟩)
    · rfl
    · simp [q_remove_head, hz]
  have hconv : ∀ r, q_remove_head m q sp bufsize = .ok r → r.2.2.2 = false →
      (q = none ∨ ∃ qq, q = some qq ∧ qq.size.val = 0) := by
    intro r hr hf
    cases q with
    | none => exact Or.inl rfl
    | some qq =>
      right
      refine ⟨qq, rfl, ?_⟩
      by_contra hne
      rw [q_remove_head_true_of_nonzero hne hr] at hf
      cases hf
  refine ⟨⟨?_, fun h => ⟨_, hfalse h, rfl⟩⟩, ?_, ?_, ?_⟩
  · rintro ⟨r, hr, hf⟩
    exact hconv r hr hf
  · intro r hr hf
    have := hfalse (hconv r hr hf)
    rw [this] at hr
    cases hr
    rfl
  · intro qq as _ hq
    rw [hq.size_eq]
    constructor
    · intro h; exact List.length_eq_zero.1 (by exact_mod_cast h)
    · rintro rfl; rfl
  · rintro qq rfl hz
    refine ⟨_, hfalse (Or.inr ⟨qq, rfl, hz⟩), rfl, ?_⟩
    show Res.ok qq.size = Res.ok ⟨0, by decide⟩
    exact congrArg Res.ok (Subtype.ext hz)

/-- C14 (evaluation at the failing input): `q_size(NULL)` reads `q->size` through the
null pointer, undefined behaviour where the claim and the comment of `q_size` say 0;
on a live queue it returns the count. -/
theorem q_size_null_undefined :
    q_size none = .ub ∧ ∀ qq : queue_t, q_size (some qq) = .ok qq.size :=
  ⟨rfl, fun _ => rfl⟩

/-- C15 (evaluation at the failing input): on the absent queue, when the allocations
succeed, `q_insert_head` and `q_insert_tail` dereference the null queue pointer,
undefined behaviour where the claim and the comments of both functions say they return
false; they return false only when an allocation fails. -/
theorem insert_null_queue_undefined (m : Heap) (s : Option (List Nat)) (a : Nat) :
    q_insert_head m none s (some a) true = .ub ∧
    q_insert_tail m none s (some a) true = .ub ∧
    q_insert_head m none s none true = .ok (m, none, false) ∧
    q_insert_tail m none s none true = .ok (m, none, false) := by
  refine ⟨?_, ?_, rfl, rfl⟩
  · simp [q_insert_head]
  · simp [q_insert_tail]

/-- C16: on a live queue, when the allocation of the node fails, or that of the copy
of a present value, `q_insert_head` and `q_insert_tail` return false and give back the
heap and the queue record unchanged. -/
theorem insert_alloc_failure (m : Heap) (q : queue_t) (s : Option (List Nat))
    (newh : Option Nat) (valloc : Bool)
    (hfail : newh = none ∨ (s.isSome ∧ valloc = false)) :
    q_insert_head m (some q) s newh valloc = .ok (m, some q, false) ∧
    q_insert_tail m (some q) s newh valloc = .ok (m, some q, false) := by
  cases newh with
  | none => exact ⟨rfl, rfl⟩
  | some a =>
    rcases hfail with h | h
    · cases h
    · exact ⟨by simp only [q_insert_head, if_pos h], by simp only [q_insert_tail, if_pos h]⟩

/-- Witness of C16: the copy of "x" cannot be allocated on the three-node queue. -/
theorem insert_alloc_failure_witness :
    ((some 20 : Option Nat) = none ∨ ((some (bytes "x")).isSome ∧ false = false)) ∧
    (q_insert_head ex_heap (some ex_queue) (some (bytes "x")) (some 20) false =
        .ok (ex_heap, some ex_queue, false) ∧
      q_insert_tail ex_heap (some ex_queue) (some (bytes "x")) (some 20) false =
        .ok (ex_heap, some ex_queue, false)) :=
  ⟨Or.inr ⟨rfl, rfl⟩,
    insert_alloc_failure ex_heap ex_queue (some (bytes "x")) (some 20) false
      (Or.inr ⟨rfl, rfl⟩)⟩

theorem dup_isQueue : IsQueue dup_heap dup_queue [10, 11, 12] :=
  ⟨rfl, ⟨⟨_, rfl, rfl⟩, ⟨_, rfl, rfl⟩, ⟨_, rfl, rfl⟩, trivial⟩, rfl, rfl⟩

theorem dup_allPresent : AllPresent dup_heap [10, 11, 12] := by
  intro a ha
  simp only [List.mem_cons, List.mem_singleton, List.not_mem_nil, or_false] at ha
  rcases ha with rfl | rfl | rfl <;> rfl

theorem strcmp_bytes_self : ∀ (x : List Nat), strcmp_bytes x x = 0
  | [] => rfl
  | a :: as => by
    simp only [strcmp_bytes, ne_eq, not_true_eq_false, if_false]
    split
    · rfl
    · exact strcmp_bytes_self as

theorem ge_at_of_value_eq {m : Heap} {a b : Nat} (h : value_at m a = value_at m b) :
    ge_at m a b = true := by
  simp [ge_at, str_at, h, strcmp_bytes_self]

theorem strcmp_of_present {m : Heap} {a b : Nat} (ha : (value_at m a).isSome)
    (hb : (value_at m b).isSome) :
    strcmp (value_at m a) (value_at m b) = .ok (strcmp_bytes (str_at m a) (str_at m b)) := by
  unfold str_at
  cases hva : value_at m a with
  | none => rw [hva] at ha; cases ha
  | some va =>
    cases hvb : value_at m b with
    | none => rw [hvb] at hb; cases hb
    | some vb => rfl

/-- C17: `q_sort` is stable.  On a well-formed queue of present strings it returns,
and two nodes holding equal values (more generally, two nodes whose values the merge
test `strcmp >= 0` already puts in this order) keep their relative order: when `a`
precedes `b` before the sort, `a` precedes `b` after it. -/
theorem sort_stable (m : Heap) (q : queue_t) (as : List Nat) (fuel : Nat)
    (hq : IsQueue m q as) (hp : AllPresent m as) (hf : as.length + 1 < fuel) :
    ∃ m' q' bs, q_sort fuel m (some q) = .ok (m', some q') ∧ IsQueue m' q' bs ∧
      (∀ a b, List.Sublist [a, b] as → value_at m a = value_at m b → List.Sublist [a, b] bs) ∧
      (∀ a b, List.Sublist [a, b] as → 0 ≤ strcmp_bytes (str_at m a) (str_at m b) →
        List.Sublist [a, b] bs) := by
  rcases q_sort_spec hq fuel hf with ⟨-, hnp⟩ | ⟨m', q', hrun, hq', -, -, -⟩
  · exact absurd hp hnp
  · refine ⟨m', q', _, hrun, hq', fun a b hs hv => ?_, fun a b hs hc => ?_⟩
    · exact List.pair_sublist_mergeSort (ge_at_trans m) (ge_at_total m)
        (ge_at_of_value_eq hv) hs
    · exact List.pair_sublist_mergeSort (ge_at_trans m) (ge_at_total m)
        (by simpa [ge_at] using hc) hs

/-- Witness of C17 on the three-node queue "b", "a", "b". -/
theorem sort_stable_witness :
    IsQueue dup_heap dup_queue [10, 11, 12] ∧ AllPresent dup_heap [10, 11, 12] ∧
    [10, 11, 12].length + 1 < 5 ∧
    (∃ m' q' bs, q_sort 5 dup_heap (some dup_queue) = .ok (m', some q') ∧ IsQueue m' q' bs ∧
      (∀ a b, List.Sublist [a, b] [10, 11, 12] → value_at dup_heap a = value_at dup_heap b →
        List.Sublist [a, b] bs) ∧
      (∀ a b, List.Sublist [a, b] [10, 11, 12] →
        0 ≤ strcmp_bytes (str_at dup_heap a) (str_at dup_heap b) → List.Sublist [a, b] bs)) ∧
    stable_example = .ok [10, 12, 11] :=
  ⟨dup_isQueue, dup_allPresent, by decide,
    sort_stable dup_heap dup_queue [10, 11, 12] 5 dup_isQueue dup_allPresent (by decide),
    by decide⟩

/-- C18 (evaluation at the failing input): `q_insert_head` of the absent value and
`q_insert_tail` of "a" succeed and give a queue of two elements, and `q_sort` on it has
undefined behaviour: the merge loop calls `strcmp` on the `NULL` value. -/
theorem sort_absent_undefined :
    insert_absent_example =
      .ok (true, true, some { head := some 1, tail := some 2, size := ⟨2, by decide⟩ }) ∧
    sort_absent_example = .ub :=
  ⟨by decide, by decide⟩

/-- C19: `merge_sort` terminates on every non-empty chain that ends in `NULL`: with a
budget above the length plus one it never runs out, and it returns when the strings
are present.  On a chain of `n >= 2` nodes the slow/fast walk stops on a node after
which the chain is cut into its first `(n + 1) / 2` nodes and its last `n / 2` nodes,
both parts non-empty and shorter than `n`. -/
theorem merge_sort_terminates (m : Heap) (as : List Nat) (fuel : Nat) (hne : as ≠ [])
    (hl : lseg m as none) (hf : as.length + 1 < fuel) :
    merge_sort fuel m (hd as none) ≠ .fuel ∧
    (AllPresent m as → ∃ r, merge_sort fuel m (hd as none) = .ok r) ∧
    (2 ≤ as.length → ∃ hn s fast m1,
      get_next m (hd as none) = .ok hn ∧ hn ≠ none ∧
      split_loop fuel m (hd as none) hn = .ok (some s) ∧
      get_next m (some s) = .ok fast ∧ set_next m (some s) none = .ok m1 ∧
      Chain m1 (hd as none) (as.take ((as.length + 1) / 2)) ∧
      Chain m1 fast (as.drop ((as.length + 1) / 2)) ∧
      (as.take ((as.length + 1) / 2)).length = (as.length + 1) / 2 ∧
      (as.drop ((as.length + 1) / 2)).length = as.length / 2 ∧
      0 < (as.length + 1) / 2 ∧ (as.length + 1) / 2 < as.length ∧
      0 < as.length / 2 ∧ as.length / 2 < as.length) := by
  refine ⟨?_, ?_, ?_⟩
  · rcases merge_sort_spec fuel as m hne hl hf with ⟨hub, -⟩ | ⟨m', hrun, -⟩
    · rw [hub]; exact fun h => Res.noConfusion h
    · rw [hrun]; exact fun h => Res.noConfusion h
  · intro hp
    rcases merge_sort_spec fuel as m hne hl hf with ⟨-, hnp⟩ | ⟨m', hrun, -⟩
    · exact absurd hp hnp
    · exact ⟨_, hrun⟩
  · intro h2
    have hk : (as.length - 1) / 2 + 1 = (as.length + 1) / 2 := by omega
    have hsplit := split_loop_spec hl hne fuel 0 (Nat.zero_le _) (by omega)
    obtain ⟨s, es, hp, -, hes, hL, hR⟩ := lseg_cut (k := (as.length - 1) / 2) hl (by omega)
    have hfast := get_next_ptr (i := (as.length - 1) / 2) hl (by omega)
    have hnext := get_next_ptr (i := 0) hl (by omega)
    have h1 : ptr as (0 + 1) ≠ none := by
      intro h
      have := ptr_eq_none.1 h
      omega
    rw [hp] at hsplit hfast
    rw [hk] at hL hR hfast
    rw [ptr_zero] at hsplit hnext
    refine ⟨ptr as (0 + 1), s, ptr as ((as.length + 1) / 2), _, hnext, h1, hsplit, hfast,
      set_next_of hes none, ⟨?_, hL⟩, ⟨rfl, hR⟩, ?_, ?_, ?_, ?_, ?_, ?_⟩
    · cases as with
      | nil => exact absurd rfl hne
      | cons a rest =>
        obtain ⟨k, hk'⟩ : ∃ k, (((a :: rest).length + 1) / 2) = k + 1 :=
          ⟨((a :: rest).length + 1) / 2 - 1, by omega⟩
        rw [hk', List.take_succ_cons]; rfl
    · rw [List.length_take]; omega
    · rw [List.length_drop]; omega
    · omega
    · omega
    · omega
    · omega

/-- Witness of C19 on the chain of three nodes of `ex_heap`. -/
theorem merge_sort_terminates_witness :
    ([10, 11, 12] : List Nat) ≠ [] ∧ lseg ex_heap [10, 11, 12] none ∧
    [10, 11, 12].length + 1 < 5 ∧
    (merge_sort 5 ex_heap (hd [10, 11, 12] none) ≠ .fuel ∧
    (AllPresent ex_heap [10, 11, 12] →
      ∃ r, merge_sort 5 ex_heap (hd [10, 11, 12] none) = .ok r) ∧
    (2 ≤ [10, 11, 12].length → ∃ hn s fast m1,
      get_next ex_heap (hd [10, 11, 12] none) = .ok hn ∧ hn ≠ none ∧
      split_loop 5 ex_heap (hd [10, 11, 12] none) hn = .ok (some s) ∧
      get_next ex_heap (some s) = .ok fast ∧ set_next ex_heap (some s) none = .ok m1 ∧
      Chain m1 (hd [10, 11, 12] none) ([10, 11, 12].take (([10, 11, 12].length + 1) / 2)) ∧
      Chain m1 fast ([10, 11, 12].drop (([10, 11, 12].length + 1) / 2)) ∧
      ([10, 11, 12].take (([10, 11, 12].length + 1) / 2)).length =
        ([10, 11, 12].length + 1) / 2 ∧
      ([10, 11, 12].drop (([10, 11, 12].length + 1) / 2)).length = [10, 11, 12].length / 2 ∧
      0 < ([10, 11, 12].length + 1) / 2 ∧
      ([10, 11, 12].length + 1) / 2 < [10, 11, 12].length ∧
      0 < [10, 11, 12].length / 2 ∧ [10, 11, 12].length / 2 < [10, 11, 12].length)) :=
  ⟨by decide, ex_isQueue.links, by decide,
    merge_sort_terminates ex_heap [10, 11, 12] 5 (by decide) ex_isQueue.links (by decide)⟩

/-- C20: on a well-formed queue of present strings `q_sort` returns, and the values
read from first to last are non-increasing: `strcmp` of the value of a node and the
value of any later node, its successor in particular, is defined and non-negative. -/
theorem sort_non_increasing (m : Heap) (q : queue_t) (as : List Nat) (fuel : Nat)
    (hq : IsQueue m q as) (hp : AllPresent m as) (hf : as.length + 1 < fuel) :
    ∃ m' q' bs, q_sort fuel m (some q) = .ok (m', some q') ∧ IsQueue m' q' bs ∧
      bs.Pairwise (fun a b => ∃ c, strcmp (value_at m' a) (value_at m' b) = .ok c ∧ 0 ≤ c) ∧
      bs.Chain' (fun a b => ∃ c, strcmp (value_at m' a) (value_at m' b) = .ok c ∧ 0 ≤ c) := by
  rcases q_sort_spec hq fuel hf with ⟨-, hnp⟩ | ⟨m', q', hrun, hq', hsv, -, -⟩
  · exact absurd hp hnp
  · have hperm : (as.mergeSort (ge_at m)).Perm as := List.mergeSort_perm as _
    have hsorted : (as.mergeSort (ge_at m)).Pairwise (fun a b => ge_at m a b = true) :=
      List.sorted_mergeSort (ge_at_trans m) (ge_at_total m) as
    have hp' : AllPresent m' (as.mergeSort (ge_at m)) := by
      rw [hsv.allPresent]
      exact fun a ha => hp a (hperm.mem_iff.1 ha)
    have hpw : (as.mergeSort (ge_at m)).Pairwise
        (fun a b => ∃ c, strcmp (value_at m' a) (value_at m' b) = .ok c ∧ 0 ≤ c) := by
      refine List.Pairwise.imp_of_mem (fun {a b} ha hb hab => ?_) hsorted
      refine ⟨_, strcmp_of_present (hp' a ha) (hp' b hb), ?_⟩
      rw [← hsv.ge_at] at hab
      simpa [ge_at] using hab
    exact ⟨m', q', _, hrun, hq', hpw, hpw.chain'⟩

/-- Witness of C20 on the three-node queue "banana", "apple", "cherry". -/
theorem sort_non_increasing_witness :
    IsQueue ex_heap ex_queue [10, 11, 12] ∧ AllPresent ex_heap [10, 11, 12] ∧
    [10, 11, 12].length + 1 < 5 ∧
    ∃ m' q' bs, q_sort 5 ex_heap (some ex_queue) = .ok (m', some q') ∧ IsQueue m' q' bs ∧
      bs.Pairwise (fun a b => ∃ c, strcmp (value_at m' a) (value_at m' b) = .ok c ∧ 0 ≤ c) ∧
      bs.Chain' (fun a b => ∃ c, strcmp (value_at m' a) (value_at m' b) = .ok c ∧ 0 ≤ c) :=
  ⟨ex_isQueue, ex_allPresent, by decide,
    sort_non_increasing ex_heap ex_queue [10, 11, 12] 5 ex_isQueue ex_allPresent (by decide)⟩

end Queue
